import Mathlib

/-!
Verification of the MilkCheck execution core (`lib/MilkCheck/Engine/Action.py`
and the `ActionManager` it relies on) against its natural-language
specification.  The Python source is shallowly embedded: pure methods become
Lean functions, the stateful `prepare` / `update_status` / `schedule` /
`ev_close` machinery becomes an explicit fuel-indexed interpreter over an
engine state, and Python `assert` failures / raised exceptions become
`Except` errors.  Machine integers do not occur (all counters are small
Python ints, modelled as `Int` / `Nat`).
-/

namespace MilkCheck

/-- The status symbols imported from `MilkCheck.Engine.BaseEntity`
(`NO_STATUS`, `WAITING_STATUS`, `DONE`, `TIMED_OUT`, `TOO_MANY_ERRORS`,
`ERROR`). -/
inductive Status where
  | NO_STATUS
  | WAITING_STATUS
  | DONE
  | TIMED_OUT
  | TOO_MANY_ERRORS
  | ERROR
deriving DecidableEq, Repr

/-- A ClusterShell worker as seen by `Action`: its timeout flag
(`worker.did_timeout()`) and the per-return-code node groups
(`worker.iter_retcodes()`, a list of `(retcode, nodes)` pairs). -/
structure Worker where
  did_timeout : Bool
  retcodes : List (Int × List String)
deriving DecidableEq, Repr

/-- Total number of nodes reported in non-zero return-code groups of an
`iter_retcodes` listing. -/
def errTotal (rcs : List (Int × List String)) : Nat :=
  rcs.foldl (fun n p => if p.1 ≠ 0 then n + p.2.length else n) 0

/-- The accumulation loop of `Action.has_too_many_errors` (source lines
237-244): walk the `(retcode, nodes)` groups keeping a running
`error_count`; after adding each non-zero group, set the sticky flag when
the count strictly exceeds the tolerated `errors`. -/
def tooManyLoop (errors : Nat) : List (Int × List String) → Nat → Bool → Bool
  | [], _, flag => flag
  | (rc, nds) :: rest, cnt, flag =>
    if rc ≠ 0 then
      tooManyLoop errors rest (cnt + nds.length)
        (flag || decide (errors < cnt + nds.length))
    else
      tooManyLoop errors rest cnt flag

/-- The object-level view of an `Action` instance: the attributes set in
`Action.__init__` (source lines 140-164).  `retry` mirrors `_retry`
(initially `0`) and `retry_backup` mirrors `_retry_backup` (initially the
sentinel `-1`).  Timestamps are abstract `Option Nat` wall-clock values. -/
structure ActionObj where
  name : String
  target : Option String
  command : Option String
  timeout : Nat
  delay : Nat
  retry : Int
  retry_backup : Int
  errors : Nat
  worker : Option Worker
  start_time : Option Nat
  stop_time : Option Nat
  status : Status
deriving DecidableEq, Repr

/-- `Action.__init__(name, target, command, timeout, delay)`. -/
def ActionObj.init (name : String) (target : Option String)
    (command : Option String) (timeout : Nat) (delay : Nat) : ActionObj :=
  { name := name, target := target, command := command, timeout := timeout,
    delay := delay, retry := 0, retry_backup := -1, errors := 0,
    worker := none, start_time := none, stop_time := none,
    status := .NO_STATUS }

/-- `Action.has_too_many_errors` (source lines 232-245), on the object
view: `False` without a worker, otherwise the accumulation loop over
`iter_retcodes` starting from count `0` and flag `False`. -/
def ActionObj.has_too_many_errors (a : ActionObj) : Bool :=
  match a.worker with
  | none => false
  | some w => tooManyLoop a.errors w.retcodes 0 false

/-- `Action.set_retry` (source lines 247-257): assert `delay > 0`, assert
`retry >= 0`, assign `_retry`, and record the value into the `-1`-sentinel
shadow `_retry_backup` on the first successful assignment.  An assertion
failure is `none` (the Python `AssertionError` fires before any
mutation). -/
def ActionObj.set_retry (v : Int) (a : ActionObj) : Option ActionObj :=
  if a.delay = 0 then none
  else if v < 0 then none
  else some { a with retry := v,
                     retry_backup :=
                       if a.retry_backup = -1 then v else a.retry_backup }

/-- `Action.reset` (source lines 166-174): clear `start_time`, `stop_time`
and `worker`, and restore `_retry` from `_retry_backup`.
Modelled from the spec: the `BaseEntity.reset(self)` call (class not under
`src/`) clears the entity status back to `NO_STATUS` ("terminal statuses
are sticky until an explicit `reset`"). -/
def ActionObj.reset (a : ActionObj) : ActionObj :=
  { a with status := .NO_STATUS, start_time := none, stop_time := none,
           worker := none, retry := a.retry_backup }

/-- Modelled from the spec: the `ActionManager` class itself is not under
`src/` (only `ActionManagerTest.py` is).  A running task is an action seen
by the manager: its identity and its optional per-action `fanout` hint. -/
structure MTask where
  id : Nat
  fanout : Option Nat
deriving DecidableEq, Repr

/-- Modelled from the spec: `effective_fanout(manager) = min(action.fanout
for action in running if action.fanout is set)`, `none` when no running
action has a fan-out set. -/
def effective_fanout (ts : List MTask) : Option Nat :=
  ts.foldl
    (fun acc t =>
      match t.fanout with
      | none => acc
      | some f =>
        match acc with
        | none => some f
        | some a => some (min a f))
    none

/-- Modelled from the spec: the Action Manager singleton state — the
running set, the eagerly recomputed effective fan-out (unset by default,
meaning unconstrained), and the monotonic `tasks_done_count`. -/
structure ActionManager where
  running_tasks : List MTask
  fanout : Option Nat
  tasks_done_count : Nat
deriving DecidableEq, Repr

/-- Modelled from the spec: a fresh manager has an empty running set and an
unset fan-out. -/
def ActionManager.init : ActionManager :=
  { running_tasks := [], fanout := none, tasks_done_count := 0 }

/-- Modelled from the spec: `add_task(a)` inserts `a` into the running set
(idempotent by identity) and eagerly recomputes the effective fan-out. -/
def add_task (t : MTask) (m : ActionManager) : ActionManager :=
  let r := if m.running_tasks.any (fun u => u.id = t.id) then
      m.running_tasks
    else m.running_tasks ++ [t]
  { m with running_tasks := r, fanout := effective_fanout r }

/-- Modelled from the spec: `remove_task(a)` removes `a` from the running
set, recomputes the effective fan-out from the remaining members (reverting
to unset when the set empties) and bumps the done counter. -/
def remove_task (t : MTask) (m : ActionManager) : ActionManager :=
  let r := m.running_tasks.filter (fun u => u.id ≠ t.id)
  { running_tasks := r, fanout := effective_fanout r,
    tasks_done_count := m.tasks_done_count + 1 }



/-- The static dependency graph over actions, identified by numeric ids:
`parents a` models `a.parents.values()` (each dependency's target) and
`children a` models `a.children.values()`. -/
structure Graph where
  parents : Nat → List Nat
  children : Nat → List Nat

/-- The mutable per-action state read and written by the engine methods:
status, the `_retry` counter with its `_retry_backup` shadow, the `delay`
and `errors` configuration, the captured worker and the two
timestamp-set flags (the wall-clock values themselves are irrelevant to
the engine's control flow). -/
structure AState where
  status : Status
  retry : Int
  retry_backup : Int
  delay : Nat
  errors : Nat
  worker : Option Worker
  start_time : Bool
  stop_time : Bool

/-- The notifications pushed to the callback sink plus the two engine
side effects that leave the modelled core (`action_manager_self().
remove_task` on close, and `service.update_status` bubbling). -/
inductive Ev where
  | STATUS_CHANGED (a : Nat)
  | COMPLETE (a : Nat)
  | TRIGGER_DEP (src : Nat) (tgt : Nat)
  | DELAYED (a : Nat)
  | STARTED (a : Nat)
  | SVC_UPDATE (a : Nat) (v : Status)
  | REMOVED (a : Nat)
deriving DecidableEq, Repr

/-- The engine state: per-action states and the chronological list of
emitted events. -/
structure EngState where
  st : Nat → AState
  evs : List Ev

/-- Append one emitted event. -/
def emit (e : Ev) (s : EngState) : EngState := { s with evs := s.evs ++ [e] }

/-- Update one action's state in place. -/
def setSt (a : Nat) (f : AState → AState) (s : EngState) : EngState :=
  { s with st := fun b => if b = a then f (s.st b) else s.st b }

/-- A status outside `NO_STATUS`/`WAITING_STATUS`. -/
def terminalStatus (v : Status) : Bool :=
  match v with
  | .NO_STATUS => false
  | .WAITING_STATUS => false
  | _ => true

/-- Modelled from the spec: `BaseEntity.eval_deps_status` (class not under
`src/`) aggregates over the parents: DONE iff all parents DONE; ERROR iff
any parent is in a non-DONE terminal state; WAITING iff any parent is
WAITING_STATUS; otherwise NO_STATUS. -/
def eval_deps_status (G : Graph) (s : EngState) (a : Nat) : Status :=
  if (G.parents a).all (fun p => (s.st p).status == Status.DONE) then
    .DONE
  else if (G.parents a).any (fun p =>
      terminalStatus (s.st p).status && !((s.st p).status == Status.DONE))
    then .ERROR
  else if (G.parents a).any (fun p =>
      (s.st p).status == Status.WAITING_STATUS) then .WAITING_STATUS
  else .NO_STATUS

/-- Modelled from the spec: `BaseEntity.is_ready` (class not under `src/`)
holds when the action's dependencies are all satisfied, i.e. every parent
is in a terminal state. -/
def is_ready (G : Graph) (s : EngState) (a : Nat) : Bool :=
  (G.parents a).all fun p => terminalStatus (s.st p).status

/-- `Action.schedule` (source lines 278-293): stamp `start_time` on first
call, then either notify `EV_DELAYED` and hand the action to the delayed
path (`delay > 0` and delays allowed) or notify `EV_STARTED` and fire it;
the Action Manager's dispatch itself is outside the modelled core, the
event records which path ran. -/
def schedule (a : Nat) (allow_delay : Bool) (s : EngState) : EngState :=
  let s1 := if (s.st a).start_time then s
    else setSt a (fun x => { x with start_time := true }) s
  if (decide ((s1.st a).delay ≠ 0)) && allow_delay then emit (.DELAYED a) s1
  else emit (.STARTED a) s1

/-- Engine failures: a Python `AssertionError` with its message, or fuel
exhaustion of the recursion model. -/
inductive EngErr where
  | assertFail (msg : String)
  | fuelOut
deriving DecidableEq, Repr

/-- The four mutually recursive control points of the engine:
`Action.prepare`, `Action.update_status`, the children loop of
`update_status`, and the parents loop of `prepare`. -/
inductive Call where
  | prep (a : Nat)
  | upd (v : Status) (a : Nat)
  | prepKids (a : Nat) (cs : List Nat)
  | prepMany (ps : List Nat)
deriving DecidableEq, Repr

/-- The tuple of the `assert` in `Action.update_status` (source lines
212-213): `(NO_STATUS, WAITING_STATUS, DONE, TOO_MANY_ERRORS,
TIMED_OUT)`. -/
def validStatus (v : Status) : Bool :=
  v == .NO_STATUS || v == .WAITING_STATUS || v == .DONE
    || v == .TOO_MANY_ERRORS || v == .TIMED_OUT

/-- Well-formedness of a control point: a children loop only ever holds a
suffix of the originating action's children list. -/
def callWF (G : Graph) : Call → Prop
  | .prepKids a cs => ∀ c2 ∈ cs, c2 ∈ G.children a
  | _ => True

/-- The fuel-indexed interpreter of the mutually recursive engine methods.
`upd v a` is `Action.update_status` (source lines 206-226): assert the
status is in the allowed tuple, assign it, notify `EV_STATUS_CHANGED`;
for a terminal status notify `EV_COMPLETE`, then either walk the children
(notifying `EV_TRIGGER_DEP` and preparing each child that `is_ready`) or,
with no children, bubble the status to `service.update_status`.
`prep a` is `Action.prepare` (source lines 181-203): with no own status
and no dependency in progress, either mark WAITING and `schedule` (deps
ERROR or no parents), or mark DONE (deps DONE), or recurse into every
parent still in NO_STATUS. -/
def run (G : Graph) : Nat → Call → EngState → Except EngErr EngState
  | 0, _, _ => .error .fuelOut
  | fuel+1, c, s =>
    match c with
    | .upd v a =>
      if validStatus v then
        let s1 := emit (.STATUS_CHANGED a)
          (setSt a (fun x => { x with status := v }) s)
        if v == .NO_STATUS || v == .WAITING_STATUS then .ok s1
        else
          let s2 := emit (.COMPLETE a) s1
          if G.children a = [] then .ok (emit (.SVC_UPDATE a v) s2)
          else run G fuel (.prepKids a (G.children a)) s2
      else .error (.assertFail "Bad action status")
    | .prep a =>
      let ds := eval_deps_status G s a
      if (s.st a).status = .NO_STATUS ∧ ds ≠ .WAITING_STATUS then
        if ds = .ERROR ∨ G.parents a = [] then
          match run G fuel (.upd .WAITING_STATUS a) s with
          | .ok s1 => .ok (schedule a true s1)
          | .error e => .error e
        else if ds = .DONE then run G fuel (.upd .DONE a) s
        else run G fuel (.prepMany ((G.parents a).filter
            (fun p => (s.st p).status == Status.NO_STATUS))) s
      else .ok s
    | .prepKids a cs =>
      match cs with
      | [] => .ok s
      | c0 :: rest =>
        if is_ready G s c0 then
          match run G fuel (.prep c0) (emit (.TRIGGER_DEP a c0) s) with
          | .ok s1 => run G fuel (.prepKids a rest) s1
          | .error e => .error e
        else run G fuel (.prepKids a rest) s
    | .prepMany ps =>
      match ps with
      | [] => .ok s
      | p :: rest =>
        match run G fuel (.prep p) s with
        | .ok s1 => run G fuel (.prepMany rest) s1
        | .error e => .error e

/-- `Action.update_status` as the interpreter entry point. -/
def update_status (G : Graph) (fuel : Nat) (v : Status) (a : Nat)
    (s : EngState) : Except EngErr EngState :=
  run G fuel (.upd v a) s

/-- `Action.prepare` as the interpreter entry point. -/
def prepare (G : Graph) (fuel : Nat) (a : Nat) (s : EngState) :
    Except EngErr EngState :=
  run G fuel (.prep a) s

/-- `Action.has_too_many_errors` on the engine view of an action (same
source lines 232-245 as `ActionObj.has_too_many_errors`). -/
def AState.has_too_many_errors (x : AState) : Bool :=
  match x.worker with
  | none => false
  | some w => tooManyLoop x.errors w.retcodes 0 false

/-- `Action.has_timed_out` (source lines 228-230): delegated to the
captured worker's timeout flag, `False` without a worker. -/
def AState.has_timed_out (x : AState) : Bool :=
  match x.worker with
  | none => false
  | some w => w.did_timeout

/-- `self.retry -= 1` goes through the `retry` property setter
(source lines 247-257): assert `delay > 0`, assert the value is
non-negative, then assign and seed the `-1`-sentinel backup. -/
def engSetRetry (a : Nat) (v : Int) (s : EngState) :
    Except EngErr EngState :=
  if (s.st a).delay = 0 then
    .error (.assertFail "No way to specify retry without a delay")
  else if v < 0 then
    .error (.assertFail "No way to specify a negative retry")
  else .ok (setSt a (fun x =>
    { x with retry := v,
             retry_backup :=
               (if x.retry_backup = -1 then v else x.retry_backup) }) s)

/-- The state mutations `ev_close` performs before classifying the
attempt: stamp `stop_time`, remove the action from the Action Manager's
running set, and capture the worker. -/
def closeState (a : Nat) (w : Worker) (s : EngState) : EngState :=
  setSt a (fun x => { x with worker := some w })
    (emit (.REMOVED a) (setSt a (fun x => { x with stop_time := true }) s))

/-- `ActionEventHandler.ev_close` (source lines 97-131): after the close
mutations, classify the attempt; on a failed attempt with retries left,
decrement the retry counter and `schedule()` again (delays allowed);
otherwise enter `update_status` with `TOO_MANY_ERRORS`, `TIMED_OUT` or
`DONE`. -/
def ev_close (G : Graph) (fuel : Nat) (a : Nat) (w : Worker)
    (s : EngState) : Except EngErr EngState :=
  let s3 := closeState a w s
  let error := (s3.st a).has_too_many_errors
  let timed_out := (s3.st a).has_timed_out
  if (error || timed_out) && decide (0 < (s3.st a).retry) then
    match engSetRetry a ((s3.st a).retry - 1) s3 with
    | .ok s4 => .ok (schedule a true s4)
    | .error e => .error e
  else if error then run G fuel (.upd .TOO_MANY_ERRORS a) s3
  else if timed_out then run G fuel (.upd .TIMED_OUT a) s3
  else run G fuel (.upd .DONE a) s3



/-- A parentless, childless dependency graph (concrete test fixture). -/
def emptyG : Graph := { parents := fun _ => [], children := fun _ => [] }

/-- A two-action chain: action 1 depends on action 0 (concrete test
fixture). -/
def chainG : Graph :=
  { parents := fun n => if n = 1 then [0] else [],
    children := fun n => if n = 0 then [1] else [] }

/-- A uniform per-action state (concrete test fixture). -/
def mkAState (v : Status) (retry : Int) (delay : Nat) : AState :=
  { status := v, retry := retry, retry_backup := -1, delay := delay,
    errors := 0, worker := none, start_time := false, stop_time := false }

/-- A uniform engine state with an empty event log (concrete test
fixture). -/
def constSt (v : Status) (retry : Int) (delay : Nat) : EngState :=
  { st := fun _ => mkAState v retry delay, evs := [] }



/-- A word character of the Python 2 regex `\w`: `[A-Za-z0-9_]`. -/
def isWordChar (c : Char) : Bool := c.isAlphanum || c = '_'

/-- The scanner of `re.findall('\${1}[\w]+', command)` (source line 299),
with the `$` of each symbol already stripped as the loop's
`lstrip('$')` does: after each `$`, the maximal non-empty run of word
characters is one symbol, and scanning continues behind it.  The second
argument holds the partial symbol while inside such a run. -/
def tokensAux : List Char → Option (List Char) → List (List Char)
  | [], none => []
  | [], some acc => if acc = [] then [] else [acc]
  | c :: rest, none =>
    if c = '$' then tokensAux rest (some []) else tokensAux rest none
  | c :: rest, some acc =>
    if isWordChar c then tokensAux rest (some (acc ++ [c]))
    else
      let tail := if c = '$' then tokensAux rest (some [])
        else tokensAux rest none
      if acc = [] then tail else acc :: tail

/-- All `$NAME` symbol names of a command, in occurrence order, with
duplicates, exactly as the loop of `resolved_command` receives them. -/
def findTokens (cmd : String) : List (List Char) := tokensAux cmd.data none

/-- `re.sub` for the literal patterns `\$NAME` the source builds
(source line 303, `'\%s' % symbol`): replace every non-overlapping,
left-to-right occurrence of `pat` by `repl`.  The counter argument counts
pattern characters still to skip after a match.  (The replacement text is
taken literally; `re.sub`'s backreference escapes in the replacement are
outside the model.) -/
def substSkip (pat repl : List Char) : List Char → Nat → List Char
  | [], _ => []
  | _ :: rest, n+1 => substSkip pat repl rest n
  | c :: rest, 0 =>
    if pat.isPrefixOf (c :: rest) then
      repl ++ substSkip pat repl rest (pat.length - 1)
    else c :: substSkip pat repl rest 0

/-- Replace every occurrence of `pat` by `repl` in `s`. -/
def substAll (pat repl s : List Char) : List Char := substSkip pat repl s 0

/-- One attribute/variable scope (an Action, Service or Service Manager
object): `attrs` maps attribute names — as probed by `hasattr` and read by
`getattr` with the lowercased symbol — to string values, `vars` is the
object's `variables` mapping. -/
structure VarScope where
  attrs : List (String × String)
  vars : List (String × String)
deriving DecidableEq, Repr

/-- The lookup environment of `resolved_command`: the Action, its possibly
absent owning Service, and the Service Manager singleton. -/
structure ResolveCtx where
  action : VarScope
  service : Option VarScope
  manager : VarScope
deriving DecidableEq, Repr

/-- The six-branch first-match-wins chain in the loop body of
`Action.resolved_command` (source lines 300-330): Action attribute under
the lowercased name, Action variables, Service attribute (`hasattr(None,
n)` is false for word-character names when the action has no service),
Service variables (source-guarded by `self.service and ...`), Service
Manager attribute, Service Manager variables. -/
def resolveVar (ctx : ResolveCtx) (n : List Char) : Option String :=
  match ctx.action.attrs.lookup (String.mk (n.map Char.toLower)) with
  | some v => some v
  | none =>
    match ctx.action.vars.lookup (String.mk n) with
    | some v => some v
    | none =>
      match (match ctx.service with
             | none => none
             | some svc => svc.attrs.lookup (String.mk (n.map Char.toLower))) with
      | some v => some v
      | none =>
        match (match ctx.service with
               | none => none
               | some svc => svc.vars.lookup (String.mk n)) with
        | some v => some v
        | none =>
          match ctx.manager.attrs.lookup (String.mk (n.map Char.toLower)) with
          | some v => some v
          | none => ctx.manager.vars.lookup (String.mk n)

/-- First set member of an ordered candidate list. -/
def firstSome : List (Option String) → Option String
  | [] => none
  | some v :: _ => some v
  | none :: rest => firstSome rest

/-- The resolution order in the words of the spec (section 4.5): the six
scopes tried in order, first match wins. -/
def resolveVarSpec (ctx : ResolveCtx) (n : List Char) : Option String :=
  firstSome
    [ctx.action.attrs.lookup (String.mk (n.map Char.toLower)),
     ctx.action.vars.lookup (String.mk n),
     (match ctx.service with
      | none => none
      | some svc => svc.attrs.lookup (String.mk (n.map Char.toLower))),
     (match ctx.service with
      | none => none
      | some svc => svc.vars.lookup (String.mk n)),
     ctx.manager.attrs.lookup (String.mk (n.map Char.toLower)),
     ctx.manager.vars.lookup (String.mk n)]

/-- The message of `UndefinedVariableError` (source lines 26-33). -/
def undefinedVariableError (varname : List Char) (cmd : String) : String :=
  "Variable [" ++ String.mk varname ++ "] undefined in [" ++ cmd ++ "]"

/-- The symbol loop of `resolved_command`: iterate the symbols found in
the ORIGINAL command, substituting each resolved value into the
progressively rewritten command; an unresolvable symbol raises
`UndefinedVariableError` naming the symbol and the original command. -/
def resolveLoop (ctx : ResolveCtx) (orig : String) :
    List (List Char) → List Char → Except String (List Char)
  | [], cur => .ok cur
  | n :: rest, cur =>
    match resolveVar ctx n with
    | some v => resolveLoop ctx orig rest (substAll ('$' :: n) v.data cur)
    | none => .error (undefinedVariableError n orig)

/-- `Action.resolved_command` (source lines 295-331). -/
def resolved_command (ctx : ResolveCtx) (cmd : String) :
    Except String String :=
  match resolveLoop ctx cmd (findTokens cmd) cmd.data with
  | .ok r => .ok ⟨r⟩
  | .error e => .error e

/-- `pat` occurs as a contiguous substring of `s`. -/
def occursIn (pat : List Char) : List Char → Bool
  | [] => pat.isEmpty
  | c :: rest => pat.isPrefixOf (c :: rest) || occursIn pat rest

/-- No dollar sign in `s`. -/
def dollarFree (s : List Char) : Bool := s.all (fun c => !(c = '$'))

/-- Only word characters in `n`. -/
def wordOnly (n : List Char) : Bool := n.all isWordChar

/-- Segment view of a command template: literal text interleaved with
`$name` token occurrences. -/
inductive Seg where
  | lit (l : List Char)
  | tok (n : List Char)
deriving DecidableEq, Repr

/-- The command text a segment list denotes. -/
def renderSegs : List Seg → List Char
  | [] => []
  | .lit l :: rest => l ++ renderSegs rest
  | .tok n :: rest => '$' :: (n ++ renderSegs rest)

/-- The token names of a segment list, in order, with duplicates. -/
def segNames : List Seg → List (List Char)
  | [] => []
  | .lit _ :: rest => segNames rest
  | .tok n :: rest => n :: segNames rest

/-- Substitution at the segment level: turn every `tok n` into literal
text `v`. -/
def substSeg (n v : List Char) : List Seg → List Seg
  | [] => []
  | .lit l :: rest => .lit l :: substSeg n v rest
  | .tok m :: rest =>
    (if m = n then .lit v else .tok m) :: substSeg n v rest

/-- Substitution-compatible segments: literals are `$`-free and token
names are non-empty word-character runs. -/
def segsSubOK : List Seg → Bool
  | [] => true
  | .lit l :: rest => dollarFree l && segsSubOK rest
  | .tok m :: rest => (!m.isEmpty) && wordOnly m && segsSubOK rest

/-- Well-formed segment decomposition of a template: additionally, a
literal directly after a token starts with a non-word, non-`$` character,
so every token is maximal, exactly as `findall` produces it. -/
def segsWF : List Seg → Bool
  | [] => true
  | .lit l :: rest => dollarFree l && segsWF rest
  | .tok n :: rest =>
    (!n.isEmpty) && wordOnly n &&
    (match rest with
     | [] => true
     | .lit l :: _ =>
       (match l with
        | [] => false
        | c :: _ => !isWordChar c && !(c = '$'))
     | .tok _ :: _ => true) && segsWF rest

/-- Concrete resolver fixture with all four scope levels populated. -/
def ctx4 : ResolveCtx :=
  { action := { attrs := [("target", "node1")], vars := [("V", "vv")] },
    service := some { attrs := [("name", "svc")], vars := [("SV", "sv")] },
    manager := { attrs := [], vars := [("MV", "mv")] } }

/-- Concrete resolver fixture whose value for `A` itself contains the
token `$B`. -/
def ctx9 : ResolveCtx :=
  { action := { attrs := [], vars := [("A", "x$B"), ("B", "y")] },
    service := none,
    manager := { attrs := [], vars := [] } }

/-- Concrete resolver fixture with `$`-free values. -/
def ctx9v : ResolveCtx :=
  { action := { attrs := [], vars := [("A", "x"), ("B", "y")] },
    service := none,
    manager := { attrs := [], vars := [] } }

/-- The segment decomposition of the template `"$A $B"`. -/
def segs9 : List Seg :=
  [.tok ['A'], .lit [' '], .tok ['B']]


/-- Frame property for an action `b`: its status is untouched and no new
dispatch notification (`EV_STARTED` / `EV_DELAYED`) for `b` appears. -/
def framePred (b : Nat) (s s' : EngState) : Prop :=
  (s'.st b).status = (s.st b).status ∧
  ∀ e, e ∈ s'.evs → (e = Ev.STARTED b ∨ e = Ev.DELAYED b) → e ∈ s.evs


end MilkCheck

namespace MilkCheck

theorem tooManyLoop_true (errors : Nat) :
    ∀ l cnt, tooManyLoop errors l cnt true = true := by
  intro l
  induction l with
  | nil => intro cnt; rfl
  | cons hd tl ih =>
    intro cnt
    obtain ⟨rc, nds⟩ := hd
    by_cases h : rc ≠ 0 <;> simp [tooManyLoop, h, ih]

theorem tooManyLoop_eq (errors : Nat) :
    ∀ l cnt flag, cnt ≤ errors →
      tooManyLoop errors l cnt flag
        = (flag || decide (errors < cnt + errTotal l)) := by
  intro l
  induction l with
  | nil =>
    intro cnt flag h
    simp [tooManyLoop, errTotal, Nat.not_lt_of_le h]
  | cons hd tl ih =>
    intro cnt flag h
    obtain ⟨rc, nds⟩ := hd
    by_cases hrc : rc ≠ 0
    · have herr : errTotal ((rc, nds) :: tl) = nds.length + errTotal tl := by
        simp only [errTotal, List.foldl_cons, if_pos hrc]
        have : ∀ (l₂ : List (Int × List String)) (m k : Nat), List.foldl
            (fun (n : Nat) (p : Int × List String) => if p.1 ≠ 0 then n + p.2.length else n) (m + k) l₂
            = m + List.foldl
              (fun (n : Nat) (p : Int × List String) => if p.1 ≠ 0 then n + p.2.length else n) k l₂ := by
          intro l₂
          induction l₂ with
          | nil => intro m k; rfl
          | cons h₂ t₂ ih₂ =>
            intro m k
            by_cases h1 : h₂.1 ≠ 0
            · simp only [List.foldl_cons, if_pos h1, Nat.add_assoc]
              exact ih₂ m (k + h₂.2.length)
            · simp only [List.foldl_cons, if_neg h1]
              exact ih₂ m k
        simpa using this tl nds.length 0
      by_cases hover : errors < cnt + nds.length
      · have : tooManyLoop errors ((rc, nds) :: tl) cnt flag
            = tooManyLoop errors tl (cnt + nds.length)
              (flag || decide (errors < cnt + nds.length)) := by
          simp [tooManyLoop, hrc]
        have hdec : decide (errors < cnt + nds.length) = true := by
          simpa using hover
        rw [this, hdec, Bool.or_true, tooManyLoop_true]
        have h2 : errors < cnt + errTotal ((rc, nds) :: tl) := by
          rw [herr]
          omega
        simp [h2]
      · have hle : cnt + nds.length ≤ errors := Nat.le_of_not_lt hover
        have : tooManyLoop errors ((rc, nds) :: tl) cnt flag
            = tooManyLoop errors tl (cnt + nds.length)
              (flag || decide (errors < cnt + nds.length)) := by
          simp [tooManyLoop, hrc]
        have hdec : decide (errors < cnt + nds.length) = false := by
          simpa using hover
        rw [this, hdec, Bool.or_false]
        rw [ih (cnt + nds.length) flag hle, herr]
        have h3 : cnt + nds.length + errTotal tl
            = cnt + (nds.length + errTotal tl) := by omega
        rw [h3]
    · have h0 : rc = 0 := not_not.mp hrc
      have herr : errTotal ((rc, nds) :: tl) = errTotal tl := by
        simp [errTotal, h0]
      have : tooManyLoop errors ((rc, nds) :: tl) cnt flag
          = tooManyLoop errors tl cnt flag := by
        simp [tooManyLoop, hrc]
      rw [this, ih cnt flag h, herr]

theorem errTotal_zero :
    ∀ l : List (Int × List String), (∀ p ∈ l, p.2 = []) → errTotal l = 0 := by
  intro l
  induction l with
  | nil => intro _; rfl
  | cons hd tl ih =>
    intro hz
    have h2 : hd.2 = [] := hz hd (List.mem_cons_self hd tl)
    have h4 : ∀ p ∈ tl, p.2 = [] :=
      fun p hp => hz p (List.mem_cons_of_mem hd hp)
    have h5 := ih h4
    unfold errTotal at h5 ⊢
    by_cases h1 : hd.1 ≠ 0 <;> simp_all [List.foldl_cons, h2]

/-- C7: `has_too_many_errors` returns `true` exactly when the cumulative
node count over the worker's non-zero return-code groups strictly exceeds
the action's `errors` tolerance; an action with no worker, or a run
reporting zero nodes, never yields `true`, whatever the (non-negative)
tolerance is. -/
theorem has_too_many_errors_iff (a : ActionObj) :
    (∀ w, a.worker = some w →
      (a.has_too_many_errors = true ↔ a.errors < errTotal w.retcodes)) ∧
    (a.worker = none → a.has_too_many_errors = false) ∧
    (∀ w, a.worker = some w → (∀ p ∈ w.retcodes, p.2 = []) →
      a.has_too_many_errors = false) := by
  refine ⟨?_, ?_, ?_⟩
  · intro w hw
    simp only [ActionObj.has_too_many_errors, hw]
    rw [tooManyLoop_eq a.errors w.retcodes 0 false (Nat.zero_le _)]
    simp
  · intro hw
    simp [ActionObj.has_too_many_errors, hw]
  · intro w hw hz
    simp only [ActionObj.has_too_many_errors, hw]
    rw [tooManyLoop_eq a.errors w.retcodes 0 false (Nat.zero_le _)]
    have hz0 : errTotal w.retcodes = 0 := errTotal_zero w.retcodes hz
    simp [hz0]

/-- Witness for C7: a worker with groups `(1, 2 nodes)` and `(0, 1 node)`
and tolerance `1` has too many errors, a workerless action does not, and a
zero-node run does not. -/
theorem has_too_many_errors_iff_witness :
    ({ ActionObj.init "start" none none 0 0 with
       errors := 1,
       worker := some ⟨false, [(1, ["n1", "n2"]), (0, ["n3"])]⟩
     } : ActionObj).has_too_many_errors = true
    ∧ (ActionObj.init "start" none none 0 0).has_too_many_errors = false
    ∧ ({ ActionObj.init "start" none none 0 0 with
         errors := 0,
         worker := some ⟨false, [(1, []), (2, [])]⟩
       } : ActionObj).has_too_many_errors = false := by
  refine ⟨?_, ?_, ?_⟩
  · exact ((has_too_many_errors_iff _).1 _ rfl).mpr (by decide)
  · exact (has_too_many_errors_iff _).2.1 rfl
  · exact (has_too_many_errors_iff _).2.2 _ rfl (by decide)

/-- C8: assigning the `retry` property fails the assertion whenever
`delay = 0` or the assigned value is negative; with `delay > 0` and a
non-negative value it succeeds, stores the value, and the `-1`-sentinel
shadow `retry_backup` captures the value on the first successful
assignment only. -/
theorem set_retry_spec (a : ActionObj) (v : Int) :
    (a.delay = 0 → a.set_retry v = none) ∧
    (v < 0 → a.set_retry v = none) ∧
    (a.delay ≠ 0 → 0 ≤ v →
      ∃ a', a.set_retry v = some a' ∧ a'.retry = v ∧
        (a.retry_backup = -1 → a'.retry_backup = v) ∧
        (a.retry_backup ≠ -1 → a'.retry_backup = a.retry_backup) ∧
        a'.delay = a.delay ∧ a'.status = a.status) := by
  refine ⟨?_, ?_, ?_⟩
  · intro h; simp [ActionObj.set_retry, h]
  · intro h
    by_cases hd : a.delay = 0 <;>
      simp [ActionObj.set_retry, hd, h, Int.not_le.mpr h]
  · intro hd hv
    have hs : a.set_retry v = some
        { a with
          retry := v,
          retry_backup :=
            (if a.retry_backup = -1 then v else a.retry_backup) } := by
      simp [ActionObj.set_retry, hd, Int.not_lt.mpr hv]
    refine ⟨_, hs, rfl, ?_, ?_, rfl, rfl⟩
    · intro h; simp [h]
    · intro h; simp [h]

/-- Witness for C8: with `delay = 2`, assigning `retry := 3` succeeds and
seeds the backup shadow; with `delay = 0` or a negative value the
assignment fails. -/
theorem set_retry_spec_witness :
    (∃ a', ({ ActionObj.init "start" none none 0 2 with
              retry_backup := -1 } : ActionObj).set_retry 3 = some a'
        ∧ a'.retry = 3 ∧ a'.retry_backup = 3)
    ∧ (ActionObj.init "start" none none 0 0).set_retry 3 = none
    ∧ (ActionObj.init "start" none none 0 2).set_retry
        (-1) = none := by
  refine ⟨?_, ?_, ?_⟩
  · obtain ⟨a', h1, h2, h3, -⟩ :=
      (set_retry_spec { ActionObj.init "start" none none 0 2 with
          retry_backup := -1 } 3).2.2 (by decide) (by decide)
    exact ⟨a', h1, h2, h3 rfl⟩
  · exact (set_retry_spec _ 3).1 rfl
  · exact (set_retry_spec _ (-1)).2.1 (by decide)

/-- C10: on an action whose `retry` setter never successfully ran (the
`retry_backup` shadow still holds the `-1` sentinel, as left by
`__init__`), `reset()` copies the sentinel into the retry counter, leaving
`retry = -1`, a negative value — even when `retry` was `0` beforehand —
and clears `start_time`, `stop_time` and `worker` to `None` in the same
call. -/
theorem reset_sentinel (a : ActionObj) (h : a.retry_backup = -1) :
    a.reset.retry = -1 ∧ a.reset.retry < 0 ∧
    a.reset.start_time = none ∧ a.reset.stop_time = none ∧
    a.reset.worker = none ∧
    (ActionObj.init a.name a.target a.command a.timeout a.delay).retry = 0 ∧
    (ActionObj.init a.name a.target a.command a.timeout
      a.delay).retry_backup = -1 := by
  refine ⟨?_, ?_, rfl, rfl, rfl, rfl, rfl⟩
  · simp [ActionObj.reset, h]
  · simp [ActionObj.reset, h]

/-- Witness for C10: a freshly constructed action (retry `0`, backup `-1`)
resets to `retry = -1` with timing and worker cleared. -/
theorem reset_sentinel_witness :
    (ActionObj.init "start" none none 0 0).reset.retry = -1 ∧
    (ActionObj.init "start" none none 0 0).reset.start_time = none := by
  obtain ⟨h1, -, h3, -⟩ := reset_sentinel (ActionObj.init "start" none none 0 0) rfl
  exact ⟨h1, h3⟩


theorem run_zero_eq (G : Graph) (c : Call) (s : EngState) :
    run G 0 c s = .error .fuelOut := rfl

theorem run_upd_eq (G : Graph) (fuel : Nat) (v : Status) (a : Nat)
    (s : EngState) :
    run G (fuel+1) (.upd v a) s =
      (if validStatus v then
        let s1 := emit (.STATUS_CHANGED a)
          (setSt a (fun x => { x with status := v }) s)
        if v == .NO_STATUS || v == .WAITING_STATUS then .ok s1
        else
          let s2 := emit (.COMPLETE a) s1
          if G.children a = [] then .ok (emit (.SVC_UPDATE a v) s2)
          else run G fuel (.prepKids a (G.children a)) s2
      else .error (.assertFail "Bad action status")) := rfl

theorem run_prep_eq (G : Graph) (fuel : Nat) (a : Nat) (s : EngState) :
    run G (fuel+1) (.prep a) s =
      (if (s.st a).status = .NO_STATUS ∧
          eval_deps_status G s a ≠ .WAITING_STATUS then
        if eval_deps_status G s a = .ERROR ∨ G.parents a = [] then
          match run G fuel (.upd .WAITING_STATUS a) s with
          | .ok s1 => .ok (schedule a true s1)
          | .error e => .error e
        else if eval_deps_status G s a = .DONE then
          run G fuel (.upd .DONE a) s
        else run G fuel (.prepMany ((G.parents a).filter
            (fun p => (s.st p).status == Status.NO_STATUS))) s
      else .ok s) := rfl

theorem run_kids_nil_eq (G : Graph) (fuel : Nat) (a : Nat) (s : EngState) :
    run G (fuel+1) (.prepKids a []) s = .ok s := rfl

theorem run_kids_cons_eq (G : Graph) (fuel : Nat) (a c0 : Nat)
    (rest : List Nat) (s : EngState) :
    run G (fuel+1) (.prepKids a (c0 :: rest)) s =
      (if is_ready G s c0 then
        match run G fuel (.prep c0) (emit (.TRIGGER_DEP a c0) s) with
        | .ok s1 => run G fuel (.prepKids a rest) s1
        | .error e => .error e
      else run G fuel (.prepKids a rest) s) := rfl

theorem run_many_nil_eq (G : Graph) (fuel : Nat) (s : EngState) :
    run G (fuel+1) (.prepMany []) s = .ok s := rfl

theorem run_many_cons_eq (G : Graph) (fuel : Nat) (p : Nat)
    (rest : List Nat) (s : EngState) :
    run G (fuel+1) (.prepMany (p :: rest)) s =
      (match run G fuel (.prep p) s with
      | .ok s1 => run G fuel (.prepMany rest) s1
      | .error e => .error e) := rfl

theorem framePred_refl (b : Nat) (s : EngState) : framePred b s s :=
  ⟨rfl, fun _ he _ => he⟩

theorem framePred_trans {b : Nat} {s s1 s2 : EngState}
    (h1 : framePred b s s1) (h2 : framePred b s1 s2) : framePred b s s2 :=
  ⟨h2.1.trans h1.1, fun e he hd => h1.2 e (h2.2 e he hd) hd⟩

theorem framePred_emit {b : Nat} {e : Ev} {s : EngState}
    (h1 : e ≠ Ev.STARTED b) (h2 : e ≠ Ev.DELAYED b) :
    framePred b s (emit e s) := by
  refine ⟨rfl, ?_⟩
  intro e' he' hd
  simp only [emit, List.mem_append, List.mem_singleton] at he'
  rcases he' with he' | rfl
  · exact he'
  · rcases hd with rfl | rfl
    · exact absurd rfl h1
    · exact absurd rfl h2

theorem framePred_setSt_ne {b a : Nat} {f : AState → AState} {s : EngState}
    (h : a ≠ b) : framePred b s (setSt a f s) := by
  refine ⟨?_, fun _ he _ => he⟩
  simp [setSt, Ne.symm h]

theorem framePred_setSt_keep {b a : Nat} {f : AState → AState}
    {s : EngState} (h : ∀ x, (f x).status = x.status) :
    framePred b s (setSt a f s) := by
  refine ⟨?_, fun _ he _ => he⟩
  by_cases hba : b = a
  · subst hba; simp [setSt, h]
  · simp [setSt, hba]

theorem framePred_schedule {b a : Nat} {d : Bool} {s : EngState}
    (h : a ≠ b) : framePred b s (schedule a d s) := by
  have hda : (Ev.DELAYED a) ≠ Ev.STARTED b := by intro hcon; cases hcon
  have hdb : (Ev.DELAYED a) ≠ Ev.DELAYED b := by
    intro hcon; injection hcon with h2; exact h h2
  have hsa : (Ev.STARTED a) ≠ Ev.STARTED b := by
    intro hcon; injection hcon with h2; exact h h2
  have hsb : (Ev.STARTED a) ≠ Ev.DELAYED b := by intro hcon; cases hcon
  unfold schedule
  set s1 := (if (s.st a).start_time then s
    else setSt a (fun x => { x with start_time := true }) s) with hs1def
  have hs1 : framePred b s s1 := by
    rw [hs1def]
    by_cases hst : (s.st a).start_time
    · simp only [if_pos hst]; exact framePred_refl b s
    · simp only [if_neg hst]; exact framePred_setSt_ne h
  by_cases hd : (decide ((s1.st a).delay ≠ 0) && d) = true
  · rw [if_pos hd]
    exact framePred_trans hs1 (framePred_emit hda hdb)
  · rw [if_neg hd]
    exact framePred_trans hs1 (framePred_emit hsa hsb)

theorem run_frame (G : Graph) :
    ∀ fuel c s s' b, run G fuel c s = .ok s' →
      (s.st b).status ≠ .NO_STATUS →
      (∀ v a, c = .upd v a → a ≠ b) →
      framePred b s s' := by
  intro fuel
  induction fuel with
  | zero =>
    intro c s s' b h
    rw [run_zero_eq] at h
    cases h
  | succ fuel ih =>
    intro c s s' b h hb hc
    match c with
    | .upd v a =>
      have hab : a ≠ b := hc v a rfl
      rw [run_upd_eq] at h
      by_cases hval : validStatus v = true
      · simp only [hval, if_true] at h
        have hf1 : framePred b s (emit (.STATUS_CHANGED a)
            (setSt a (fun x => { x with status := v }) s)) :=
          framePred_trans (framePred_setSt_ne hab)
            (framePred_emit (by intro hcon; cases hcon)
              (by intro hcon; cases hcon))
        by_cases hnt : (v == Status.NO_STATUS || v == Status.WAITING_STATUS)
            = true
        · simp only [hnt, if_true] at h
          cases h
          exact hf1
        · simp only [Bool.not_eq_true] at hnt
          simp only [hnt, Bool.false_eq_true, if_false] at h
          have hf2 : framePred b s (emit (.COMPLETE a)
              (emit (.STATUS_CHANGED a)
                (setSt a (fun x => { x with status := v }) s))) :=
            framePred_trans hf1 (framePred_emit
              (by intro hcon; cases hcon) (by intro hcon; cases hcon))
          by_cases hch : G.children a = []
          · simp only [hch, if_pos rfl] at h
            cases h
            exact framePred_trans hf2 (framePred_emit
              (by intro hcon; cases hcon) (by intro hcon; cases hcon))
          · rw [if_neg hch] at h
            have hb2 : ((emit (.COMPLETE a) (emit (.STATUS_CHANGED a)
                (setSt a (fun x => { x with status := v }) s))).st b).status
                ≠ .NO_STATUS := by
              rw [hf2.1]; exact hb
            exact framePred_trans hf2
              (ih _ _ _ b h hb2 (by intro v2 a2 hcon; cases hcon))
      · simp only [Bool.not_eq_true] at hval
        simp only [hval, Bool.false_eq_true, if_false] at h
        cases h
    | .prep a =>
      rw [run_prep_eq] at h
      by_cases hg : (s.st a).status = .NO_STATUS ∧
          eval_deps_status G s a ≠ .WAITING_STATUS
      · have hab : a ≠ b := by
          intro hcon
          subst hcon
          exact hb hg.1
        rw [if_pos hg] at h
        by_cases h1 : eval_deps_status G s a = .ERROR ∨ G.parents a = []
        · rw [if_pos h1] at h
          match hrec : run G fuel (.upd .WAITING_STATUS a) s with
          | .ok s1 =>
            rw [hrec] at h
            cases h
            exact framePred_trans
              (ih _ _ _ b hrec hb
                (by intro v2 a2 hcon; cases hcon; exact hab))
              (framePred_schedule hab)
          | .error e =>
            rw [hrec] at h
            cases h
        · rw [if_neg h1] at h
          by_cases h2 : eval_deps_status G s a = .DONE
          · rw [if_pos h2] at h
            exact ih _ _ _ b h hb
              (by intro v2 a2 hcon; cases hcon; exact hab)
          · rw [if_neg h2] at h
            exact ih _ _ _ b h hb (by intro v2 a2 hcon; cases hcon)
      · rw [if_neg hg] at h
        cases h
        exact framePred_refl b s
    | .prepKids a cs =>
      match cs with
      | [] =>
        rw [run_kids_nil_eq] at h
        cases h
        exact framePred_refl b s
      | c0 :: rest =>
        rw [run_kids_cons_eq] at h
        by_cases hr : is_ready G s c0 = true
        · rw [if_pos hr] at h
          match hrec : run G fuel (.prep c0) (emit (.TRIGGER_DEP a c0) s)
              with
          | .ok s1 =>
            rw [hrec] at h
            have hf0 : framePred b s (emit (.TRIGGER_DEP a c0) s) :=
              framePred_emit (by intro hcon; cases hcon)
                (by intro hcon; cases hcon)
            have hb0 : ((emit (.TRIGGER_DEP a c0) s).st b).status
                ≠ .NO_STATUS := by rw [hf0.1]; exact hb
            have hf1 : framePred b (emit (.TRIGGER_DEP a c0) s) s1 :=
              ih _ _ _ b hrec hb0 (by intro v2 a2 hcon; cases hcon)
            have hb1 : (s1.st b).status ≠ .NO_STATUS := by
              rw [hf1.1, hf0.1]; exact hb
            exact framePred_trans (framePred_trans hf0 hf1)
              (ih _ _ _ b h hb1 (by intro v2 a2 hcon; cases hcon))
          | .error e =>
            rw [hrec] at h
            cases h
        · rw [if_neg hr] at h
          exact ih _ _ _ b h hb (by intro v2 a2 hcon; cases hcon)
    | .prepMany ps =>
      match ps with
      | [] =>
        rw [run_many_nil_eq] at h
        cases h
        exact framePred_refl b s
      | p :: rest =>
        rw [run_many_cons_eq] at h
        match hrec : run G fuel (.prep p) s with
        | .ok s1 =>
          rw [hrec] at h
          have hf1 : framePred b s s1 :=
            ih _ _ _ b hrec hb (by intro v2 a2 hcon; cases hcon)
          have hb1 : (s1.st b).status ≠ .NO_STATUS := by
            rw [hf1.1]; exact hb
          exact framePred_trans hf1
            (ih _ _ _ b h hb1 (by intro v2 a2 hcon; cases hcon))
        | .error e =>
          rw [hrec] at h
          cases h



theorem setSt_st_self (a : Nat) (f : AState → AState) (s : EngState) :
    (setSt a f s).st a = f (s.st a) := by simp [setSt]

theorem setSt_st_ne (a : Nat) (f : AState → AState) (s : EngState)
    (b : Nat) (h : b ≠ a) : (setSt a f s).st b = s.st b := by
  simp [setSt, h]

theorem setSt_evs (a : Nat) (f : AState → AState) (s : EngState) :
    (setSt a f s).evs = s.evs := rfl

theorem emit_st (e : Ev) (s : EngState) : (emit e s).st = s.st := rfl

theorem emit_evs (e : Ev) (s : EngState) :
    (emit e s).evs = s.evs ++ [e] := rfl

theorem schedule_preserve (a : Nat) (d : Bool) (s : EngState) (b : Nat) :
    ((schedule a d s).st b).status = (s.st b).status ∧
    ((schedule a d s).st b).retry = (s.st b).retry ∧
    ((schedule a d s).st b).retry_backup = (s.st b).retry_backup ∧
    ((schedule a d s).st b).delay = (s.st b).delay ∧
    ((schedule a d s).st b).worker = (s.st b).worker := by
  unfold schedule
  by_cases hst : (s.st a).start_time = true
  · rw [if_pos hst]
    by_cases hd : (decide (((s.st a)).delay ≠ 0) && d) = true
    · rw [if_pos hd]; exact ⟨rfl, rfl, rfl, rfl, rfl⟩
    · rw [if_neg hd]; exact ⟨rfl, rfl, rfl, rfl, rfl⟩
  · rw [if_neg hst]
    have hstb : ∀ e, ((emit e
        (setSt a (fun x => { x with start_time := true }) s)).st b)
        = ((setSt a (fun x => { x with start_time := true }) s).st b) :=
      fun e => rfl
    by_cases hba : b = a
    · subst hba
      by_cases hd : (decide ((((setSt b (fun x =>
          { x with start_time := true }) s).st b)).delay ≠ 0) && d) = true
      · rw [if_pos hd]
        rw [hstb, setSt_st_self]
        exact ⟨rfl, rfl, rfl, rfl, rfl⟩
      · rw [if_neg hd]
        rw [hstb, setSt_st_self]
        exact ⟨rfl, rfl, rfl, rfl, rfl⟩
    · by_cases hd : (decide ((((setSt a (fun x =>
          { x with start_time := true }) s).st a)).delay ≠ 0) && d) = true
      · rw [if_pos hd]
        rw [hstb, setSt_st_ne a _ s b hba]
        exact ⟨rfl, rfl, rfl, rfl, rfl⟩
      · rw [if_neg hd]
        rw [hstb, setSt_st_ne a _ s b hba]
        exact ⟨rfl, rfl, rfl, rfl, rfl⟩

theorem schedule_evs (a : Nat) (d : Bool) (s : EngState) :
    (schedule a d s).evs = s.evs ++
      [if (decide ((s.st a).delay ≠ 0) && d) = true then Ev.DELAYED a
       else Ev.STARTED a] := by
  by_cases hst : (s.st a).start_time = true <;>
    by_cases hd : (decide ((s.st a).delay ≠ 0) && d) = true <;>
      (simp [schedule, setSt, emit, hst, hd]; try (split <;> rfl))

theorem run_evs_mono (G : Graph) :
    ∀ fuel c s s', run G fuel c s = .ok s' →
      ∃ t, s'.evs = s.evs ++ t := by
  intro fuel
  induction fuel with
  | zero => intro c s s' h; rw [run_zero_eq] at h; cases h
  | succ fuel ih =>
    intro c s s' h
    match c with
    | .upd v a =>
      rw [run_upd_eq] at h
      by_cases hval : validStatus v = true
      · simp only [hval, if_true] at h
        by_cases hnt : (v == Status.NO_STATUS
            || v == Status.WAITING_STATUS) = true
        · simp only [hnt, if_true] at h
          cases h
          exact ⟨[Ev.STATUS_CHANGED a], rfl⟩
        · simp only [Bool.not_eq_true] at hnt
          simp only [hnt, Bool.false_eq_true, if_false] at h
          by_cases hch : G.children a = []
          · simp only [hch, if_pos rfl] at h
            cases h
            exact ⟨[Ev.STATUS_CHANGED a, Ev.COMPLETE a, Ev.SVC_UPDATE a v],
              by simp [emit, setSt]⟩
          · rw [if_neg hch] at h
            obtain ⟨t, ht⟩ := ih _ _ _ h
            refine ⟨[Ev.STATUS_CHANGED a, Ev.COMPLETE a] ++ t, ?_⟩
            rw [ht]
            simp [emit, setSt]
      · simp only [Bool.not_eq_true] at hval
        simp only [hval, Bool.false_eq_true, if_false] at h
        cases h
    | .prep a =>
      rw [run_prep_eq] at h
      by_cases hg : (s.st a).status = .NO_STATUS ∧
          eval_deps_status G s a ≠ .WAITING_STATUS
      · rw [if_pos hg] at h
        by_cases h1 : eval_deps_status G s a = .ERROR ∨ G.parents a = []
        · rw [if_pos h1] at h
          match hrec : run G fuel (.upd .WAITING_STATUS a) s with
          | .ok s1 =>
            rw [hrec] at h
            cases h
            obtain ⟨t, ht⟩ := ih _ _ _ hrec
            refine ⟨t ++ [if (decide ((s1.st a).delay ≠ 0) && true) = true
              then Ev.DELAYED a else Ev.STARTED a], ?_⟩
            rw [schedule_evs, ht, List.append_assoc]
          | .error e => rw [hrec] at h; cases h
        · rw [if_neg h1] at h
          by_cases h2 : eval_deps_status G s a = .DONE
          · rw [if_pos h2] at h
            exact ih _ _ _ h
          · rw [if_neg h2] at h
            exact ih _ _ _ h
      · rw [if_neg hg] at h
        cases h
        exact ⟨[], by simp⟩
    | .prepKids a cs =>
      match cs with
      | [] =>
        rw [run_kids_nil_eq] at h
        cases h
        exact ⟨[], by simp⟩
      | c0 :: rest =>
        rw [run_kids_cons_eq] at h
        by_cases hr : is_ready G s c0 = true
        · rw [if_pos hr] at h
          match hrec : run G fuel (.prep c0) (emit (.TRIGGER_DEP a c0) s)
              with
          | .ok s1 =>
            rw [hrec] at h
            obtain ⟨t1, ht1⟩ := ih _ _ _ hrec
            obtain ⟨t2, ht2⟩ := ih _ _ _ h
            refine ⟨[Ev.TRIGGER_DEP a c0] ++ t1 ++ t2, ?_⟩
            rw [ht2, ht1, emit_evs]
            simp [List.append_assoc]
          | .error e => rw [hrec] at h; cases h
        · rw [if_neg hr] at h
          exact ih _ _ _ h
    | .prepMany ps =>
      match ps with
      | [] =>
        rw [run_many_nil_eq] at h
        cases h
        exact ⟨[], by simp⟩
      | p :: rest =>
        rw [run_many_cons_eq] at h
        match hrec : run G fuel (.prep p) s with
        | .ok s1 =>
          rw [hrec] at h
          obtain ⟨t1, ht1⟩ := ih _ _ _ hrec
          obtain ⟨t2, ht2⟩ := ih _ _ _ h
          refine ⟨t1 ++ t2, ?_⟩
          rw [ht2, ht1, List.append_assoc]
        | .error e => rw [hrec] at h; cases h



theorem upd_result_status (G : Graph) (fuel : Nat) (v : Status) (a : Nat)
    (s s' : EngState) (h : run G fuel (.upd v a) s = .ok s') :
    (s'.st a).status = v := by
  match fuel with
  | 0 => rw [run_zero_eq] at h; cases h
  | fuel+1 =>
    rw [run_upd_eq] at h
    by_cases hval : validStatus v = true
    · simp only [hval, if_true] at h
      by_cases hnt : (v == Status.NO_STATUS
          || v == Status.WAITING_STATUS) = true
      · simp only [hnt, if_true] at h
        cases h
        simp [emit, setSt]
      · simp only [Bool.not_eq_true] at hnt
        simp only [hnt, Bool.false_eq_true, if_false] at h
        by_cases hch : G.children a = []
        · simp only [hch, if_pos rfl] at h
          cases h
          simp [emit, setSt]
        · rw [if_neg hch] at h
          have hvno : v ≠ .NO_STATUS := by
            intro hcon
            subst hcon
            simp at hnt
          have hs2 : (((emit (.COMPLETE a) (emit (.STATUS_CHANGED a)
              (setSt a (fun x => { x with status := v }) s))).st a).status)
              = v := by
            simp [emit, setSt]
          have hfr := run_frame G fuel _ _ _ a h (by rw [hs2]; exact hvno)
            (by intro v2 a2 hcon; cases hcon)
          rw [hfr.1, hs2]
    · simp only [Bool.not_eq_true] at hval
      simp only [hval, Bool.false_eq_true, if_false] at h
      cases h

theorem run_no_assert (G : Graph) :
    ∀ fuel c s m, (∀ v a, c = .upd v a → validStatus v = true) →
      run G fuel c s ≠ .error (.assertFail m) := by
  intro fuel
  induction fuel with
  | zero =>
    intro c s m _ h
    rw [run_zero_eq] at h
    injection h with h2
    cases h2
  | succ fuel ih =>
    intro c s m hv h
    match c with
    | .upd v a =>
      have hval : validStatus v = true := hv v a rfl
      rw [run_upd_eq] at h
      simp only [hval, if_true] at h
      by_cases hnt : (v == Status.NO_STATUS
          || v == Status.WAITING_STATUS) = true
      · simp only [hnt, if_true] at h
        cases h
      · simp only [Bool.not_eq_true] at hnt
        simp only [hnt, Bool.false_eq_true, if_false] at h
        by_cases hch : G.children a = []
        · simp only [hch, if_pos rfl] at h
          cases h
        · rw [if_neg hch] at h
          exact ih _ _ m (by intro v2 a2 hcon; cases hcon) h
    | .prep a =>
      rw [run_prep_eq] at h
      by_cases hg : (s.st a).status = .NO_STATUS ∧
          eval_deps_status G s a ≠ .WAITING_STATUS
      · rw [if_pos hg] at h
        by_cases h1 : eval_deps_status G s a = .ERROR ∨ G.parents a = []
        · rw [if_pos h1] at h
          match hrec : run G fuel (.upd .WAITING_STATUS a) s with
          | .ok s1 => rw [hrec] at h; cases h
          | .error e =>
            rw [hrec] at h
            injection h with h2
            subst h2
            exact ih _ _ m (by intro v2 a2 hcon; cases hcon; rfl) hrec
        · rw [if_neg h1] at h
          by_cases h2 : eval_deps_status G s a = .DONE
          · rw [if_pos h2] at h
            exact ih _ _ m (by intro v2 a2 hcon; cases hcon; rfl) h
          · rw [if_neg h2] at h
            exact ih _ _ m (by intro v2 a2 hcon; cases hcon) h
      · rw [if_neg hg] at h
        cases h
    | .prepKids a cs =>
      match cs with
      | [] => rw [run_kids_nil_eq] at h; cases h
      | c0 :: rest =>
        rw [run_kids_cons_eq] at h
        by_cases hr : is_ready G s c0 = true
        · rw [if_pos hr] at h
          match hrec : run G fuel (.prep c0) (emit (.TRIGGER_DEP a c0) s)
              with
          | .ok s1 =>
            rw [hrec] at h
            exact ih _ _ m (by intro v2 a2 hcon; cases hcon) h
          | .error e =>
            rw [hrec] at h
            injection h with h2
            subst h2
            exact ih _ _ m (by intro v2 a2 hcon; cases hcon) hrec
        · rw [if_neg hr] at h
          exact ih _ _ m (by intro v2 a2 hcon; cases hcon) h
    | .prepMany ps =>
      match ps with
      | [] => rw [run_many_nil_eq] at h; cases h
      | p :: rest =>
        rw [run_many_cons_eq] at h
        match hrec : run G fuel (.prep p) s with
        | .ok s1 =>
          rw [hrec] at h
          exact ih _ _ m (by intro v2 a2 hcon; cases hcon) h
        | .error e =>
          rw [hrec] at h
          injection h with h2
          subst h2
          exact ih _ _ m (by intro v2 a2 hcon; cases hcon) hrec

theorem ready_pres (G : Graph) (fuel : Nat) (c : Call) (s s' : EngState)
    (x : Nat) (h : run G fuel c s = .ok s')
    (hc : ∀ v a, c = .upd v a → False)
    (hx : is_ready G s x = true) : is_ready G s' x = true := by
  unfold is_ready at hx ⊢
  rw [List.all_eq_true] at hx ⊢
  intro p hp
  have hpx := hx p hp
  have hne : (s.st p).status ≠ .NO_STATUS := by
    intro hcon
    rw [hcon] at hpx
    cases hpx
  have hfr := run_frame G fuel c s s' p h hne
    (fun v a hca => ((hc v a hca).elim))
  rw [hfr.1]
  exact hpx

theorem is_ready_schedule (G : Graph) (a : Nat) (d : Bool) (s : EngState)
    (x : Nat) : is_ready G (schedule a d s) x = is_ready G s x := by
  unfold is_ready
  congr 1
  funext p
  rw [(schedule_preserve a d s p).1]

theorem run_trigger (G : Graph) :
    ∀ fuel c s s' a x, run G fuel c s = .ok s' → callWF G c →
      Ev.TRIGGER_DEP a x ∈ s'.evs →
      Ev.TRIGGER_DEP a x ∈ s.evs ∨
        (x ∈ G.children a ∧ is_ready G s' x = true) := by
  intro fuel
  induction fuel with
  | zero =>
    intro c s s' a x h
    rw [run_zero_eq] at h
    cases h
  | succ fuel ih =>
    intro c s s' a x h hwf he
    match c with
    | .upd v a2 =>
      rw [run_upd_eq] at h
      by_cases hval : validStatus v = true
      · simp only [hval, if_true] at h
        by_cases hnt : (v == Status.NO_STATUS
            || v == Status.WAITING_STATUS) = true
        · simp only [hnt, if_true] at h
          cases h
          rw [emit_evs, setSt_evs] at he
          rcases List.mem_append.mp he with he | he
          · exact Or.inl he
          · simp at he
        · simp only [Bool.not_eq_true] at hnt
          simp only [hnt, Bool.false_eq_true, if_false] at h
          by_cases hch : G.children a2 = []
          · simp only [hch, if_pos rfl] at h
            cases h
            simp only [emit_evs, setSt_evs, List.append_assoc,
              List.mem_append, List.mem_singleton] at he
            rcases he with he | he | he | he
            · exact Or.inl he
            · cases he
            · cases he
            · cases he
          · rw [if_neg hch] at h
            have hwf2 : callWF G (.prepKids a2 (G.children a2)) := by
              intro c2 hc2
              exact hc2
            rcases ih _ _ _ a x h hwf2 he with he2 | hdone
            · simp only [emit_evs, setSt_evs, List.append_assoc,
                List.mem_append, List.mem_singleton] at he2
              rcases he2 with he2 | he2 | he2
              · exact Or.inl he2
              · cases he2
              · cases he2
            · exact Or.inr hdone
      · simp only [Bool.not_eq_true] at hval
        simp only [hval, Bool.false_eq_true, if_false] at h
        cases h
    | .prep a2 =>
      rw [run_prep_eq] at h
      by_cases hg : (s.st a2).status = .NO_STATUS ∧
          eval_deps_status G s a2 ≠ .WAITING_STATUS
      · rw [if_pos hg] at h
        by_cases h1 : eval_deps_status G s a2 = .ERROR ∨ G.parents a2 = []
        · rw [if_pos h1] at h
          match hrec : run G fuel (.upd .WAITING_STATUS a2) s with
          | .ok s1 =>
            rw [hrec] at h
            cases h
            rw [schedule_evs] at he
            rcases List.mem_append.mp he with he | he
            · rcases ih _ _ _ a x hrec trivial he with he2 | hdone
              · exact Or.inl he2
              · refine Or.inr ⟨hdone.1, ?_⟩
                rw [is_ready_schedule]
                exact hdone.2
            · rw [List.mem_singleton] at he
              by_cases hd : (decide ((s1.st a2).delay ≠ 0) && true) = true
              · rw [if_pos hd] at he; cases he
              · rw [if_neg hd] at he; cases he
          | .error e => rw [hrec] at h; cases h
        · rw [if_neg h1] at h
          by_cases h2 : eval_deps_status G s a2 = .DONE
          · rw [if_pos h2] at h
            exact ih _ _ _ a x h trivial he
          · rw [if_neg h2] at h
            exact ih _ _ _ a x h trivial he
      · rw [if_neg hg] at h
        cases h
        exact Or.inl he
    | .prepKids a2 cs =>
      match cs with
      | [] =>
        rw [run_kids_nil_eq] at h
        cases h
        exact Or.inl he
      | c0 :: rest =>
        rw [run_kids_cons_eq] at h
        have hwfr : callWF G (.prepKids a2 rest) := by
          intro c2 hc2
          exact hwf c2 (List.mem_cons_of_mem c0 hc2)
        by_cases hr : is_ready G s c0 = true
        · rw [if_pos hr] at h
          match hrec : run G fuel (.prep c0) (emit (.TRIGGER_DEP a2 c0) s)
              with
          | .ok s1 =>
            rw [hrec] at h
            rcases ih _ _ _ a x h hwfr he with he1 | hdone
            · rcases ih _ _ _ a x hrec trivial he1 with he0 | hdone1
              · rw [emit_evs] at he0
                rcases List.mem_append.mp he0 with he0 | he0
                · exact Or.inl he0
                · rw [List.mem_singleton] at he0
                  injection he0 with ha2 hc0
                  subst ha2
                  subst hc0
                  refine Or.inr ⟨hwf x (List.mem_cons_self x rest), ?_⟩
                  have hr1 : is_ready G s1 x = true :=
                    ready_pres G fuel _ _ s1 x hrec
                      (by intro v2 b2 hcon; cases hcon) hr
                  exact ready_pres G fuel _ s1 s' x h
                    (by intro v2 b2 hcon; cases hcon) hr1
              · refine Or.inr ⟨hdone1.1, ?_⟩
                exact ready_pres G fuel _ s1 s' x h
                  (by intro v2 b2 hcon; cases hcon) hdone1.2
            · exact Or.inr hdone
          | .error e => rw [hrec] at h; cases h
        · rw [if_neg hr] at h
          exact ih _ _ _ a x h hwfr he
    | .prepMany ps =>
      match ps with
      | [] =>
        rw [run_many_nil_eq] at h
        cases h
        exact Or.inl he
      | p :: rest =>
        rw [run_many_cons_eq] at h
        match hrec : run G fuel (.prep p) s with
        | .ok s1 =>
          rw [hrec] at h
          rcases ih _ _ _ a x h trivial he with he1 | hdone
          · rcases ih _ _ _ a x hrec trivial he1 with he0 | hdone1
            · exact Or.inl he0
            · refine Or.inr ⟨hdone1.1, ?_⟩
              exact ready_pres G fuel _ s1 s' x h
                (by intro v2 b2 hcon; cases hcon) hdone1.2
          · exact Or.inr hdone
        | .error e => rw [hrec] at h; cases h



theorem validStatus_iff (v : Status) :
    validStatus v = true ↔ (v = .NO_STATUS ∨ v = .WAITING_STATUS ∨
      v = .DONE ∨ v = .TOO_MANY_ERRORS ∨ v = .TIMED_OUT) := by
  cases v <;> decide

/-- C5 (amended): `update_status` accepts exactly the five statuses of its
assert tuple — `NO_STATUS`, `WAITING_STATUS`, `DONE`, `TOO_MANY_ERRORS`,
`TIMED_OUT`: for those it never fails the assertion, any successful return
carries the assigned status, and on a childless action it completes
successfully; for any other value — in particular the declared status
`ERROR` — it fails loudly with the assertion, before any mutation. -/
theorem update_status_assert_set (G : Graph) (fuel : Nat) (v : Status)
    (a : Nat) (s : EngState) :
    (validStatus v = true ↔ (v = .NO_STATUS ∨ v = .WAITING_STATUS ∨
      v = .DONE ∨ v = .TOO_MANY_ERRORS ∨ v = .TIMED_OUT)) ∧
    (validStatus v = true →
      (∀ m, update_status G (fuel+1) v a s ≠ .error (.assertFail m)) ∧
      (∀ s', update_status G (fuel+1) v a s = .ok s' →
        (s'.st a).status = v) ∧
      (G.children a = [] →
        ∃ s', update_status G (fuel+1) v a s = .ok s')) ∧
    (validStatus v = false →
      update_status G (fuel+1) v a s
        = .error (.assertFail "Bad action status")) := by
  refine ⟨validStatus_iff v, ?_, ?_⟩
  · intro hval
    refine ⟨?_, ?_, ?_⟩
    · intro m
      exact run_no_assert G (fuel+1) _ s m
        (by intro v2 a2 hcon; cases hcon; exact hval)
    · intro s' h
      exact upd_result_status G (fuel+1) v a s s' h
    · intro hch
      rw [update_status, run_upd_eq]
      simp only [hval, if_true]
      by_cases hnt : (v == Status.NO_STATUS
          || v == Status.WAITING_STATUS) = true
      · simp only [hnt, if_true]
        exact ⟨_, rfl⟩
      · simp only [Bool.not_eq_true] at hnt
        simp only [hnt, Bool.false_eq_true, if_false, hch, if_pos rfl]
        exact ⟨_, rfl⟩
  · intro hval
    rw [update_status, run_upd_eq]
    simp [hval]

/-- C5 counterexample: `update_status(ERROR)` does not succeed — the
`assert` tuple at source lines 212-213 omits `ERROR`, so the call fails
the assertion even though `ERROR` belongs to the declared status set. -/
theorem update_status_error_rejected :
    update_status emptyG 1 .ERROR 0 (constSt .NO_STATUS 0 0)
      = .error (.assertFail "Bad action status") ∧
    validStatus .ERROR = false := ⟨rfl, rfl⟩

/-- Witness for C5: `DONE` passes the assertion, is stored, and the call
succeeds on a childless action. -/
theorem update_status_assert_set_witness :
    (∀ m, update_status emptyG 1 .DONE 0 (constSt .NO_STATUS 0 0)
      ≠ .error (.assertFail m)) ∧
    (∃ s', update_status emptyG 1 .DONE 0 (constSt .NO_STATUS 0 0) = .ok s'
      ∧ (s'.st 0).status = .DONE) := by
  have h := update_status_assert_set emptyG 0 .DONE 0 (constSt .NO_STATUS 0 0)
  obtain ⟨hno, hset, hex⟩ := h.2.1 (by decide)
  obtain ⟨s', hs'⟩ := hex rfl
  exact ⟨hno, ⟨s', hs', hset s' hs'⟩⟩

/-- C6: every `update_status` call notifies `EV_STATUS_CHANGED` first; for
a terminal status `EV_COMPLETE` follows immediately, before everything
else emitted by the call; any `EV_TRIGGER_DEP` that the call emits for the
action names one of its children and a child that `is_ready`; and a
terminal update of a childless action bubbles the status to
`service.update_status` right after `EV_COMPLETE`. -/
theorem update_status_event_order (G : Graph) (fuel : Nat) (v : Status)
    (a : Nat) (s s' : EngState)
    (h : update_status G (fuel+1) v a s = .ok s') :
    ((v = .NO_STATUS ∨ v = .WAITING_STATUS) →
      s'.evs = s.evs ++ [Ev.STATUS_CHANGED a]) ∧
    ((v = .DONE ∨ v = .TIMED_OUT ∨ v = .TOO_MANY_ERRORS) →
      ∃ tail, s'.evs = s.evs
          ++ Ev.STATUS_CHANGED a :: Ev.COMPLETE a :: tail ∧
        (G.children a = [] → tail = [Ev.SVC_UPDATE a v]) ∧
        (∀ x, Ev.TRIGGER_DEP a x ∈ s'.evs →
          Ev.TRIGGER_DEP a x ∈ s.evs ∨
            (x ∈ G.children a ∧ is_ready G s' x = true))) := by
  constructor
  · intro hv
    rw [update_status, run_upd_eq] at h
    have hval : validStatus v = true := by rcases hv with rfl | rfl <;> rfl
    simp only [hval, if_true] at h
    have hnt : (v == Status.NO_STATUS || v == Status.WAITING_STATUS)
        = true := by rcases hv with rfl | rfl <;> rfl
    simp only [hnt, if_true] at h
    cases h
    rw [emit_evs, setSt_evs]
  · intro hv
    rw [update_status, run_upd_eq] at h
    have hval : validStatus v = true := by
      rcases hv with rfl | rfl | rfl <;> rfl
    simp only [hval, if_true] at h
    have hnt : (v == Status.NO_STATUS || v == Status.WAITING_STATUS)
        = false := by rcases hv with rfl | rfl | rfl <;> rfl
    simp only [hnt, Bool.false_eq_true, if_false] at h
    by_cases hch : G.children a = []
    · simp only [hch, if_pos rfl] at h
      cases h
      refine ⟨[Ev.SVC_UPDATE a v], ?_, fun _ => rfl, ?_⟩
      · simp [emit_evs, setSt_evs]
      · intro x hx
        simp only [emit_evs, setSt_evs, List.append_assoc, List.mem_append,
          List.mem_singleton] at hx
        rcases hx with hx | hx | hx | hx
        · exact Or.inl hx
        · cases hx
        · cases hx
        · cases hx
    · rw [if_neg hch] at h
      obtain ⟨t, ht⟩ := run_evs_mono G fuel _ _ _ h
      refine ⟨t, ?_, fun hcon => absurd hcon hch, ?_⟩
      · rw [ht]
        simp [emit_evs, setSt_evs]
      · intro x hx
        have hwf2 : callWF G (.prepKids a (G.children a)) :=
          fun c2 hc2 => hc2
        rcases run_trigger G fuel _ _ _ a x h hwf2 hx with hx2 | hdone
        · simp only [emit_evs, setSt_evs, List.append_assoc,
            List.mem_append, List.mem_singleton] at hx2
          rcases hx2 with hx2 | hx2 | hx2
          · exact Or.inl hx2
          · cases hx2
          · cases hx2
        · exact Or.inr hdone

/-- Witness for C6: completing action 0 of the two-action chain emits
`STATUS_CHANGED 0`, `COMPLETE 0` and then triggers the ready child 1. -/
theorem update_status_event_order_witness :
    ∃ s', update_status chainG 5 .DONE 0 (constSt .NO_STATUS 0 0) = .ok s'
      ∧ ∃ tail, s'.evs =
        Ev.STATUS_CHANGED 0 :: Ev.COMPLETE 0 :: tail := by
  obtain ⟨tail, ht, -, -⟩ := (update_status_event_order chainG 4 .DONE 0
    (constSt .NO_STATUS 0 0) _ rfl).2 (Or.inl rfl)
  exact ⟨_, rfl, tail, ht⟩



theorem eval_deps_status_nil (G : Graph) (s : EngState) (a : Nat)
    (h : G.parents a = []) : eval_deps_status G s a = .DONE := by
  simp [eval_deps_status, h]

theorem upd_no_dispatch (G : Graph) (fuel : Nat) (v : Status) (a : Nat)
    (s s' : EngState) (h : run G fuel (.upd v a) s = .ok s')
    (hv : v ≠ .NO_STATUS) :
    ∀ e, e ∈ s'.evs → (e = Ev.STARTED a ∨ e = Ev.DELAYED a) →
      e ∈ s.evs := by
  match fuel with
  | 0 => rw [run_zero_eq] at h; cases h
  | fuel+1 =>
    rw [run_upd_eq] at h
    by_cases hval : validStatus v = true
    · simp only [hval, if_true] at h
      by_cases hnt : (v == Status.NO_STATUS
          || v == Status.WAITING_STATUS) = true
      · simp only [hnt, if_true] at h
        cases h
        intro e he hd
        rw [emit_evs, setSt_evs] at he
        rcases List.mem_append.mp he with he | he
        · exact he
        · rw [List.mem_singleton] at he
          subst he
          rcases hd with hd | hd <;> cases hd
      · simp only [Bool.not_eq_true] at hnt
        simp only [hnt, Bool.false_eq_true, if_false] at h
        by_cases hch : G.children a = []
        · simp only [hch, if_pos rfl] at h
          cases h
          intro e he hd
          simp only [emit_evs, setSt_evs, List.append_assoc,
            List.mem_append, List.mem_singleton] at he
          rcases he with he | he | he | he
          · exact he
          all_goals (subst he; rcases hd with hd | hd <;> cases hd)
        · rw [if_neg hch] at h
          have hs2v : (((emit (.COMPLETE a) (emit (.STATUS_CHANGED a)
              (setSt a (fun x => { x with status := v }) s))).st a).status)
              = v := by
            simp [emit, setSt]
          have hfr := run_frame G fuel _ _ _ a h (by rw [hs2v]; exact hv)
            (by intro v2 a2 hcon; cases hcon)
          intro e he hd
          have he2 := hfr.2 e he hd
          simp only [emit_evs, setSt_evs, List.append_assoc,
            List.mem_append, List.mem_singleton] at he2
          rcases he2 with he2 | he2 | he2
          · exact he2
          all_goals (subst he2; rcases hd with hd | hd <;> cases hd)
    · simp only [Bool.not_eq_true] at hval
      simp only [hval, Bool.false_eq_true, if_false] at h
      cases h

/-- C1: `prepare` implements exactly the source's case analysis: it does
nothing when the action already has a status or the aggregate dependency
status is `WAITING_STATUS`; when the aggregate is `ERROR` or the action
has no parents it marks the action `WAITING_STATUS`, notifies the change
and schedules it (`EV_DELAYED` when a delay is set, else `EV_STARTED`);
when the aggregate is `DONE` (and parents exist) it marks the action
`DONE` without ever dispatching it; otherwise it recurses into exactly the
parents still in `NO_STATUS`. -/
theorem prepare_case_analysis (G : Graph) (fuel : Nat) (a : Nat)
    (s : EngState) :
    (¬ ((s.st a).status = .NO_STATUS ∧
        eval_deps_status G s a ≠ .WAITING_STATUS) →
      prepare G (fuel+1) a s = .ok s) ∧
    ((s.st a).status = .NO_STATUS →
      (eval_deps_status G s a = .ERROR ∨ G.parents a = []) →
      ∃ s', prepare G (fuel+2) a s = .ok s' ∧
        (s'.st a).status = .WAITING_STATUS ∧
        s'.evs = s.evs ++ [Ev.STATUS_CHANGED a] ++
          (if (s.st a).delay ≠ 0 then [Ev.DELAYED a]
           else [Ev.STARTED a])) ∧
    ((s.st a).status = .NO_STATUS → eval_deps_status G s a = .DONE →
      G.parents a ≠ [] →
      ∀ s', prepare G (fuel+1) a s = .ok s' →
        (s'.st a).status = .DONE ∧
        (∀ e, e ∈ s'.evs → (e = Ev.STARTED a ∨ e = Ev.DELAYED a) →
          e ∈ s.evs)) ∧
    ((s.st a).status = .NO_STATUS →
      eval_deps_status G s a = .NO_STATUS →
      prepare G (fuel+1) a s = run G fuel (.prepMany ((G.parents a).filter
        (fun p => (s.st p).status == Status.NO_STATUS))) s) := by
  refine ⟨?_, ?_, ?_, ?_⟩
  · intro hg
    rw [prepare, run_prep_eq, if_neg hg]
  · intro hst h1
    have hds : eval_deps_status G s a ≠ .WAITING_STATUS := by
      rcases h1 with h1 | h1
      · rw [h1]; intro hcon; cases hcon
      · rw [eval_deps_status_nil G s a h1]; intro hcon; cases hcon
    rw [prepare, run_prep_eq, if_pos ⟨hst, hds⟩, if_pos h1, run_upd_eq]
    have hupd : run G (fuel+1) (.upd .WAITING_STATUS a) s = .ok
        (emit (.STATUS_CHANGED a)
          (setSt a (fun x => { x with status := .WAITING_STATUS }) s)) :=
      rfl
    rw [run_upd_eq] at hupd
    rw [hupd]
    set s1 := emit (.STATUS_CHANGED a)
      (setSt a (fun x => { x with status := .WAITING_STATUS }) s) with hs1
    refine ⟨schedule a true s1, rfl, ?_, ?_⟩
    · rw [(schedule_preserve a true s1 a).1, hs1]
      simp [emit, setSt]
    · rw [schedule_evs]
      have hdel : (s1.st a).delay = (s.st a).delay := by
        rw [hs1]; simp [emit, setSt]
      have hevs : s1.evs = s.evs ++ [Ev.STATUS_CHANGED a] := by
        rw [hs1]; rfl
      rw [hdel, hevs]
      by_cases hd : (s.st a).delay = 0
      · simp [hd]
      · simp [hd]
  · intro hst hds hpar s' h
    have hne : eval_deps_status G s a ≠ .WAITING_STATUS := by
      rw [hds]; intro hcon; cases hcon
    have hnb1 : ¬ (eval_deps_status G s a = .ERROR ∨ G.parents a = []) := by
      rintro (hcon | hcon)
      · rw [hds] at hcon; cases hcon
      · exact hpar hcon
    rw [prepare, run_prep_eq, if_pos ⟨hst, hne⟩, if_neg hnb1,
      if_pos hds] at h
    exact ⟨upd_result_status G fuel .DONE a s s' h,
      upd_no_dispatch G fuel .DONE a s s' h (by intro hcon; cases hcon)⟩
  · intro hst hds
    have hne : eval_deps_status G s a ≠ .WAITING_STATUS := by
      rw [hds]; intro hcon; cases hcon
    have hnb1 : ¬ (eval_deps_status G s a = .ERROR ∨ G.parents a = []) := by
      rintro (hcon | hcon)
      · rw [hds] at hcon; cases hcon
      · rw [eval_deps_status_nil G s a hcon] at hds; cases hds
    have hnb2 : ¬ eval_deps_status G s a = .DONE := by
      rw [hds]; intro hcon; cases hcon
    rw [prepare, run_prep_eq, if_pos ⟨hst, hne⟩, if_neg hnb1, if_neg hnb2]

/-- Witness for C1: a parentless action in `NO_STATUS` is marked WAITING
and started; an action that already has a status is left untouched. -/
theorem prepare_case_analysis_witness :
    (∃ s', prepare emptyG 2 0 (constSt .NO_STATUS 0 0) = .ok s' ∧
      (s'.st 0).status = .WAITING_STATUS ∧
      s'.evs = [Ev.STATUS_CHANGED 0, Ev.STARTED 0]) ∧
    prepare emptyG 1 0 (constSt .DONE 0 0) = .ok (constSt .DONE 0 0) := by
  constructor
  · obtain ⟨s', h1, h2, h3⟩ := (prepare_case_analysis emptyG 0 0
      (constSt .NO_STATUS 0 0)).2.1 rfl (Or.inr rfl)
    refine ⟨s', h1, h2, ?_⟩
    rw [h3]
    simp [constSt, mkAState]
  · exact (prepare_case_analysis emptyG 0 0 (constSt .DONE 0 0)).1
      (by intro hcon; exact absurd hcon.1 (by decide))



theorem closeState_st_self (a : Nat) (w : Worker) (s : EngState) :
    (closeState a w s).st a
      = { s.st a with stop_time := true, worker := some w } := by
  simp [closeState, emit, setSt]

theorem closeState_evs (a : Nat) (w : Worker) (s : EngState) :
    (closeState a w s).evs = s.evs ++ [Ev.REMOVED a] := rfl

theorem ev_close_eq (G : Graph) (fuel : Nat) (a : Nat) (w : Worker)
    (s : EngState) :
    ev_close G fuel a w s =
      (if ((((closeState a w s).st a).has_too_many_errors ||
            ((closeState a w s).st a).has_timed_out)
          && decide (0 < ((closeState a w s).st a).retry)) then
        match engSetRetry a (((closeState a w s).st a).retry - 1)
            (closeState a w s) with
        | .ok s4 => .ok (schedule a true s4)
        | .error e => .error e
      else if ((closeState a w s).st a).has_too_many_errors = true then
        run G fuel (.upd .TOO_MANY_ERRORS a) (closeState a w s)
      else if ((closeState a w s).st a).has_timed_out = true then
        run G fuel (.upd .TIMED_OUT a) (closeState a w s)
      else run G fuel (.upd .DONE a) (closeState a w s)) := rfl

/-- C2: on the action-closed event, an attempt classified too-many-errors
or timed-out with `retry > 0` decrements the counter by exactly 1 and
reschedules the action through the delayed path (the delay applies and the
status is untouched); with the counter at 0 the status becomes
`TOO_MANY_ERRORS` (too many errors, which wins when both flags hold) or
`TIMED_OUT` (timed out); a completion with neither classification becomes
`DONE`. -/
theorem ev_close_spec (G : Graph) (fuel : Nat) (a : Nat) (w : Worker)
    (s : EngState) :
    ((((closeState a w s).st a).has_too_many_errors = true ∨
        ((closeState a w s).st a).has_timed_out = true) →
      0 < (s.st a).retry → (s.st a).delay ≠ 0 →
      ∃ s', ev_close G fuel a w s = .ok s' ∧
        (s'.st a).retry = (s.st a).retry - 1 ∧
        (s'.st a).status = (s.st a).status ∧
        s'.evs = s.evs ++ [Ev.REMOVED a, Ev.DELAYED a]) ∧
    (((closeState a w s).st a).has_too_many_errors = true →
      (s.st a).retry = 0 →
      ∀ s', ev_close G fuel a w s = .ok s' →
        (s'.st a).status = .TOO_MANY_ERRORS) ∧
    (((closeState a w s).st a).has_too_many_errors = false →
      ((closeState a w s).st a).has_timed_out = true →
      (s.st a).retry = 0 →
      ∀ s', ev_close G fuel a w s = .ok s' →
        (s'.st a).status = .TIMED_OUT) ∧
    (((closeState a w s).st a).has_too_many_errors = false →
      ((closeState a w s).st a).has_timed_out = false →
      ∀ s', ev_close G fuel a w s = .ok s' →
        (s'.st a).status = .DONE) := by
  have hretry : ((closeState a w s).st a).retry = (s.st a).retry := by
    rw [closeState_st_self]
  have hdelay : ((closeState a w s).st a).delay = (s.st a).delay := by
    rw [closeState_st_self]
  have hstatus : ((closeState a w s).st a).status = (s.st a).status := by
    rw [closeState_st_self]
  refine ⟨?_, ?_, ?_, ?_⟩
  · intro hcls hr hd
    have hcond : ((((closeState a w s).st a).has_too_many_errors ||
        ((closeState a w s).st a).has_timed_out)
        && decide (0 < ((closeState a w s).st a).retry)) = true := by
      rw [hretry]
      rcases hcls with hcls | hcls <;> simp [hcls, hr]
    rw [ev_close_eq, if_pos hcond]
    have hdel3 : ¬ ((closeState a w s).st a).delay = 0 := by
      rw [hdelay]; exact hd
    have hvge : ¬ (((closeState a w s).st a).retry - 1 < 0) := by
      rw [hretry]; omega
    rw [engSetRetry, if_neg hdel3, if_neg hvge]
    set s4 := setSt a (fun x =>
      { x with retry := ((closeState a w s).st a).retry - 1,
               retry_backup :=
                 (if x.retry_backup = -1
                  then ((closeState a w s).st a).retry - 1
                  else x.retry_backup) }) (closeState a w s) with hs4
    refine ⟨schedule a true s4, rfl, ?_, ?_, ?_⟩
    · rw [(schedule_preserve a true s4 a).2.1, hs4, setSt_st_self, ← hretry]
    · rw [(schedule_preserve a true s4 a).1, hs4, setSt_st_self, ← hstatus]
    · rw [schedule_evs]
      have hd4 : (s4.st a).delay = (s.st a).delay := by
        rw [hs4, setSt_st_self, ← hdelay]
      have hevs4 : s4.evs = s.evs ++ [Ev.REMOVED a] := by
        rw [hs4, setSt_evs, closeState_evs]
      rw [hd4, hevs4]
      have : (decide ((s.st a).delay ≠ 0) && true) = true := by simp [hd]
      rw [this, if_pos rfl]
      simp
  · intro hE hr s' h
    have hcond : ((((closeState a w s).st a).has_too_many_errors ||
        ((closeState a w s).st a).has_timed_out)
        && decide (0 < ((closeState a w s).st a).retry)) = false := by
      rw [hretry, hr]
      simp
    rw [ev_close_eq, hcond] at h
    simp only [Bool.false_eq_true, if_false] at h
    rw [if_pos hE] at h
    exact upd_result_status G fuel _ a _ s' h
  · intro hE hT hr s' h
    have hcond : ((((closeState a w s).st a).has_too_many_errors ||
        ((closeState a w s).st a).has_timed_out)
        && decide (0 < ((closeState a w s).st a).retry)) = false := by
      rw [hretry, hr]
      simp
    have hEne : ¬ ((closeState a w s).st a).has_too_many_errors = true := by
      rw [hE]; simp
    rw [ev_close_eq, hcond] at h
    simp only [Bool.false_eq_true, if_false] at h
    rw [if_neg hEne, if_pos hT] at h
    exact upd_result_status G fuel _ a _ s' h
  · intro hE hT s' h
    have hcond : ((((closeState a w s).st a).has_too_many_errors ||
        ((closeState a w s).st a).has_timed_out)
        && decide (0 < ((closeState a w s).st a).retry)) = false := by
      rw [hE, hT]
      simp
    have hEne : ¬ ((closeState a w s).st a).has_too_many_errors = true := by
      rw [hE]; simp
    have hTne : ¬ ((closeState a w s).st a).has_timed_out = true := by
      rw [hT]; simp
    rw [ev_close_eq, hcond] at h
    simp only [Bool.false_eq_true, if_false] at h
    rw [if_neg hEne, if_neg hTne] at h
    exact upd_result_status G fuel _ a _ s' h

/-- Witness for C2: an attempt with one failing node, tolerance 0,
`retry = 2` and `delay = 1` is rescheduled with `retry = 1` through the
delayed path; a clean attempt completes as `DONE`. -/
theorem ev_close_spec_witness :
    (∃ s', ev_close emptyG 1 0 ⟨false, [(1, ["n1"])]⟩
        (constSt .WAITING_STATUS 2 1) = .ok s' ∧
      (s'.st 0).retry = 1 ∧
      s'.evs = [Ev.REMOVED 0, Ev.DELAYED 0]) ∧
    (∃ s', ev_close emptyG 1 0 ⟨false, [(0, ["n1"])]⟩
        (constSt .WAITING_STATUS 2 1) = .ok s' ∧
      (s'.st 0).status = .DONE) := by
  constructor
  · obtain ⟨s', h1, h2, h3, h4⟩ := (ev_close_spec emptyG 1 0
      ⟨false, [(1, ["n1"])]⟩ (constSt .WAITING_STATUS 2 1)).1
      (Or.inl (by decide)) (by decide) (by decide)
    refine ⟨s', h1, ?_, ?_⟩
    · rw [h2]; decide
    · rw [h4]; rfl
  · refine ⟨_, rfl, ?_⟩
    exact (ev_close_spec emptyG 1 0 ⟨false, [(0, ["n1"])]⟩
      (constSt .WAITING_STATUS 2 1)).2.2.2 (by decide) (by decide) _ rfl



theorem resolveVar_eq_spec (ctx : ResolveCtx) (n : List Char) :
    resolveVar ctx n = resolveVarSpec ctx n := by
  unfold resolveVar resolveVarSpec
  generalize ctx.action.attrs.lookup (String.mk (n.map Char.toLower)) = o1
  generalize ctx.action.vars.lookup (String.mk n) = o2
  generalize (match ctx.service with
    | none => none
    | some svc => svc.attrs.lookup (String.mk (n.map Char.toLower))
    : Option String) = o3
  generalize (match ctx.service with
    | none => none
    | some svc => svc.vars.lookup (String.mk n) : Option String) = o4
  generalize ctx.manager.attrs.lookup (String.mk (n.map Char.toLower)) = o5
  generalize ctx.manager.vars.lookup (String.mk n) = o6
  cases o1 <;> cases o2 <;> cases o3 <;> cases o4 <;> cases o5 <;>
    cases o6 <;> rfl

theorem resolveLoop_error (ctx : ResolveCtx) (orig : String) :
    ∀ toks cur e, resolveLoop ctx orig toks cur = .error e →
      ∃ n, n ∈ toks ∧ resolveVar ctx n = none ∧
        e = undefinedVariableError n orig := by
  intro toks
  induction toks with
  | nil => intro cur e h; cases h
  | cons n rest ih =>
    intro cur e h
    unfold resolveLoop at h
    cases hr : resolveVar ctx n with
    | some v =>
      rw [hr] at h
      obtain ⟨m, hm, h2, h3⟩ := ih _ e h
      exact ⟨m, List.mem_cons_of_mem n hm, h2, h3⟩
    | none =>
      rw [hr] at h
      injection h with h2
      exact ⟨n, List.mem_cons_self n rest, hr, h2.symm⟩

theorem resolveLoop_error_exists (ctx : ResolveCtx) (orig : String) :
    ∀ toks cur, (∃ n, n ∈ toks ∧ resolveVar ctx n = none) →
      ∃ e, resolveLoop ctx orig toks cur = .error e := by
  intro toks
  induction toks with
  | nil =>
    intro cur h
    obtain ⟨n, hn, -⟩ := h
    cases hn
  | cons n rest ih =>
    intro cur h
    unfold resolveLoop
    cases hr : resolveVar ctx n with
    | some v =>
      obtain ⟨m, hm, h2⟩ := h
      rcases List.mem_cons.mp hm with rfl | hm
      · rw [hr] at h2; cases h2
      · exact ih _ ⟨m, hm, h2⟩
    | none => exact ⟨_, rfl⟩

/-- C4: each `$NAME` token is resolved by the six-way first-match-wins
chain in exactly the spec's order — Action attribute (lowercased name),
Action variables, Service attribute, Service variables, Service Manager
attribute, Service Manager variables (proved as a refinement against the
spec-order lookup `resolveVarSpec`); when no scope matches,
`resolved_command` raises the undefined-variable error whose message names
both the variable and the ORIGINAL command, and it raises it exactly when
some token of the command is unresolvable. -/
theorem resolved_command_resolution_order (ctx : ResolveCtx)
    (cmd : String) :
    (∀ n, resolveVar ctx n = resolveVarSpec ctx n) ∧
    (∀ e, resolved_command ctx cmd = .error e →
      ∃ n, n ∈ findTokens cmd ∧ resolveVar ctx n = none ∧
        e = undefinedVariableError n cmd) ∧
    ((∃ n, n ∈ findTokens cmd ∧ resolveVar ctx n = none) →
      ∃ e, resolved_command ctx cmd = .error e) := by
  refine ⟨resolveVar_eq_spec ctx, ?_, ?_⟩
  · intro e h
    unfold resolved_command at h
    cases hl : resolveLoop ctx cmd (findTokens cmd) cmd.data with
    | ok r => rw [hl] at h; cases h
    | error e2 =>
      rw [hl] at h
      injection h with h2
      subst h2
      exact resolveLoop_error ctx cmd _ _ e2 hl
  · intro h
    obtain ⟨e, he⟩ := resolveLoop_error_exists ctx cmd
      (findTokens cmd) cmd.data h
    refine ⟨e, ?_⟩
    unfold resolved_command
    rw [he]

/-- Witness for C4: in a populated environment the chain equals the
spec-order lookup on `TARGET`, and the command `"$TARGET $MISSING"` fails
with the undefined-variable message naming `MISSING` and the original
command. -/
theorem resolved_command_resolution_order_witness :
    resolveVar ctx4 "TARGET".data = resolveVarSpec ctx4 "TARGET".data ∧
    resolveVar ctx4 "TARGET".data = some "node1" ∧
    ∃ n, n ∈ findTokens "$TARGET $MISSING" ∧ resolveVar ctx4 n = none ∧
      resolved_command ctx4 "$TARGET $MISSING"
        = .error (undefinedVariableError n "$TARGET $MISSING") := by
  have he : resolved_command ctx4 "$TARGET $MISSING"
      = .error (undefinedVariableError "MISSING".data
          "$TARGET $MISSING") := rfl
  obtain ⟨n, h1, h2, h3⟩ := (resolved_command_resolution_order ctx4
    "$TARGET $MISSING").2.1 _ he
  exact ⟨(resolved_command_resolution_order ctx4 "$TARGET $MISSING").1 _,
    rfl, n, h1, h2, h3 ▸ he⟩

/-- C9 counterexample: with `command = "$A $B"`, `A ↦ "x$B"` and
`B ↦ "y"`, the `$B` occurring inside the value substituted for the
earlier token `$A` IS itself expanded: the result is `"xy y"`, with no
`$B` left, not `"x$B y"`. -/
theorem resolved_command_reexpands :
    resolveVar ctx9 "A".data = some "x$B" ∧
    occursIn ('$' :: "B".data) "x$B".data = true ∧
    resolved_command ctx9 "$A $B" = .ok "xy y" ∧
    occursIn ('$' :: "B".data) "xy y".data = false := by
  exact ⟨rfl, rfl, rfl, rfl⟩



theorem tokensAux_nil_some (acc : List Char) :
    tokensAux [] (some acc) = if acc = [] then [] else [acc] := rfl

theorem tokensAux_cons_none (c : Char) (rest : List Char) :
    tokensAux (c :: rest) none =
      if c = '$' then tokensAux rest (some [])
      else tokensAux rest none := rfl

theorem tokensAux_cons_some (c : Char) (rest acc : List Char) :
    tokensAux (c :: rest) (some acc) =
      if isWordChar c then tokensAux rest (some (acc ++ [c]))
      else
        (if acc = [] then
          (if c = '$' then tokensAux rest (some [])
           else tokensAux rest none)
         else acc :: (if c = '$' then tokensAux rest (some [])
           else tokensAux rest none)) := rfl

theorem substSkip_skip (pat repl : List Char) (c : Char)
    (rest : List Char) (k : Nat) :
    substSkip pat repl (c :: rest) (k+1) = substSkip pat repl rest k := rfl

theorem substSkip_zero (pat repl : List Char) (c : Char)
    (rest : List Char) :
    substSkip pat repl (c :: rest) 0 =
      if pat.isPrefixOf (c :: rest) then
        repl ++ substSkip pat repl rest (pat.length - 1)
      else c :: substSkip pat repl rest 0 := rfl

theorem dollarFree_cons (c : Char) (rest : List Char)
    (h : dollarFree (c :: rest) = true) :
    ¬ c = '$' ∧ dollarFree rest = true := by
  unfold dollarFree at h
  rw [List.all_cons, Bool.and_eq_true] at h
  refine ⟨?_, h.2⟩
  have h1 := h.1
  intro hc
  rw [hc] at h1
  simp at h1

theorem wordOnly_cons (c : Char) (rest : List Char)
    (h : wordOnly (c :: rest) = true) :
    isWordChar c = true ∧ wordOnly rest = true := by
  unfold wordOnly at h
  rw [List.all_cons, Bool.and_eq_true] at h
  exact h

theorem wordOnly_dollarFree (n : List Char) (h : wordOnly n = true) :
    dollarFree n = true := by
  unfold wordOnly at h
  unfold dollarFree
  rw [List.all_eq_true] at h ⊢
  intro c hc
  have h2 := h c hc
  by_cases hce : c = '$'
  · subst hce
    exact absurd h2 (by decide)
  · simp [hce]

theorem dollarFree_append (a b : List Char) :
    dollarFree (a ++ b) = (dollarFree a && dollarFree b) := by
  simp [dollarFree, List.all_append]

theorem occursIn_dollar_of_free (n : List Char) :
    ∀ s, dollarFree s = true → occursIn ('$' :: n) s = false := by
  intro s
  induction s with
  | nil => intro _; rfl
  | cons c rest ih =>
    intro h
    obtain ⟨hc, hr⟩ := dollarFree_cons c rest h
    have hpf : ('$' :: n).isPrefixOf (c :: rest) = false := by
      unfold List.isPrefixOf
      have hb : ('$' == c) = false := by
        rw [beq_eq_false_iff_ne]
        exact fun hcc => hc hcc.symm
      simp [hb]
    unfold occursIn
    rw [ih hr, hpf]
    rfl

theorem tokensAux_append_free :
    ∀ (l s : List Char), dollarFree l = true →
      tokensAux (l ++ s) none = tokensAux s none := by
  intro l
  induction l with
  | nil => intro s _; rfl
  | cons c rest ih =>
    intro s h
    obtain ⟨hc, hr⟩ := dollarFree_cons c rest h
    rw [List.cons_append, tokensAux_cons_none, if_neg hc]
    exact ih s hr

theorem tokensAux_word_run :
    ∀ (n s acc : List Char), wordOnly n = true →
      tokensAux (n ++ s) (some acc) = tokensAux s (some (acc ++ n)) := by
  intro n
  induction n with
  | nil => intro s acc _; simp
  | cons c rest ih =>
    intro s acc h
    obtain ⟨hc, hr⟩ := wordOnly_cons c rest h
    rw [List.cons_append, tokensAux_cons_some, if_pos hc, ih s _ hr]
    have : (acc ++ [c]) ++ rest = acc ++ (c :: rest) := by
      rw [List.append_assoc, List.singleton_append]
    rw [this]

theorem substSkip_run (pat repl : List Char) :
    ∀ xs ys, substSkip pat repl (xs ++ ys) xs.length
      = substSkip pat repl ys 0 := by
  intro xs
  induction xs with
  | nil => intro ys; rfl
  | cons c rest ih =>
    intro ys
    rw [List.cons_append]
    have hlen : (c :: rest).length = rest.length + 1 := rfl
    rw [hlen, substSkip_skip]
    exact ih ys

theorem substSkip_append_free (n v : List Char) :
    ∀ xs ys, dollarFree xs = true →
      substSkip ('$' :: n) v (xs ++ ys) 0
        = xs ++ substSkip ('$' :: n) v ys 0 := by
  intro xs
  induction xs with
  | nil => intro ys _; rfl
  | cons c rest ih =>
    intro ys h
    obtain ⟨hc, hr⟩ := dollarFree_cons c rest h
    rw [List.cons_append]
    have hpf : ('$' :: n).isPrefixOf (c :: (rest ++ ys)) = false := by
      unfold List.isPrefixOf
      have hb : ('$' == c) = false := by
        rw [beq_eq_false_iff_ne]
        exact fun hcc => hc hcc.symm
      simp [hb]
    rw [substSkip_zero]
    rw [hpf]
    simp only [Bool.false_eq_true, if_false]
    rw [ih ys hr, List.cons_append]

theorem isPrefixOf_append_self (n s : List Char) :
    n.isPrefixOf (n ++ s) = true := by
  rw [List.isPrefixOf_iff_prefix]
  exact List.prefix_append n s

theorem isPrefixOf_append_false (n m s : List Char)
    (h1 : n.isPrefixOf m = false) (h2 : m.isPrefixOf n = false) :
    n.isPrefixOf (m ++ s) = false := by
  by_contra hcon
  rw [Bool.not_eq_false, List.isPrefixOf_iff_prefix] at hcon
  rcases Nat.le_total n.length m.length with hle | hle
  · have hpm : n <+: m :=
      List.prefix_of_prefix_length_le hcon (List.prefix_append m s) hle
    rw [← List.isPrefixOf_iff_prefix] at hpm
    rw [hpm] at h1
    cases h1
  · have hpm : m <+: n :=
      List.prefix_of_prefix_length_le (List.prefix_append m s) hcon hle
    rw [← List.isPrefixOf_iff_prefix] at hpm
    rw [hpm] at h2
    cases h2



theorem renderSegs_lit (l : List Char) (rest : List Seg) :
    renderSegs (.lit l :: rest) = l ++ renderSegs rest := rfl

theorem renderSegs_tok (n : List Char) (rest : List Seg) :
    renderSegs (.tok n :: rest) = '$' :: (n ++ renderSegs rest) := rfl

theorem renderSegs_nil : renderSegs [] = [] := rfl

theorem tokensAux_render :
    ∀ segs, segsWF segs = true →
      tokensAux (renderSegs segs) none = segNames segs := by
  intro segs
  induction segs with
  | nil => intro _; rfl
  | cons sg rest ih =>
    intro h
    match sg with
    | .lit l =>
      simp only [segsWF, Bool.and_eq_true] at h
      rw [renderSegs_lit, tokensAux_append_free l _ h.1]
      exact ih (h.2)
    | .tok n =>
      have hword : wordOnly n = true := by
        simp only [segsWF, Bool.and_eq_true] at h
        exact h.1.1.2
      have hne : ¬ n = [] := by
        simp only [segsWF, Bool.and_eq_true] at h
        have h1 := h.1.1.1
        intro hn
        subst hn
        cases h1
      rw [renderSegs_tok, tokensAux_cons_none, if_pos rfl,
        tokensAux_word_run n _ [] hword, List.nil_append]
      match rest with
      | [] =>
        rw [renderSegs_nil, tokensAux_nil_some, if_neg hne]
        rfl
      | .lit l :: rest2 =>
        simp only [segsWF, Bool.and_eq_true] at h
        have hbnd := h.1.2
        have hwfr : segsWF (.lit l :: rest2) = true := by
          simp only [segsWF, Bool.and_eq_true]
          exact h.2
        match l, hbnd with
        | [], hbnd => exact absurd hbnd (by decide)
        | c :: l2, hbnd =>
          rw [Bool.and_eq_true] at hbnd
          have hcw : ¬ isWordChar c = true := by
            intro hcon
            rw [hcon] at hbnd
            cases hbnd.1
          have hcd : ¬ c = '$' := by
            intro hcon
            rw [hcon] at hbnd
            have hb2 := hbnd.2
            simp at hb2
          have hrender : renderSegs (Seg.lit (c :: l2) :: rest2)
              = c :: (l2 ++ renderSegs rest2) := rfl
          rw [hrender, tokensAux_cons_some, if_neg hcw, if_neg hne,
            if_neg hcd]
          have ih2 := ih hwfr
          rw [hrender, tokensAux_cons_none, if_neg hcd] at ih2
          rw [ih2]
          rfl
      | .tok m :: rest2 =>
        simp only [segsWF, Bool.and_eq_true] at h
        have hwfr : segsWF (.tok m :: rest2) = true := by
          simp only [segsWF, Bool.and_eq_true]
          exact h.2
        have hrender : renderSegs (Seg.tok m :: rest2)
            = '$' :: (m ++ renderSegs rest2) := rfl
        have hdw : ¬ isWordChar '$' = true := by decide
        rw [hrender, tokensAux_cons_some, if_neg hdw, if_neg hne,
          if_pos rfl]
        have ih2 := ih hwfr
        rw [hrender, tokensAux_cons_none, if_pos rfl] at ih2
        rw [ih2]
        rfl

theorem substAll_render (n v : List Char) (hn : ¬ n = []) :
    ∀ segs, segsSubOK segs = true →
      (∀ m ∈ segNames segs, m ≠ n →
        n.isPrefixOf m = false ∧ m.isPrefixOf n = false) →
      substAll ('$' :: n) v (renderSegs segs)
        = renderSegs (substSeg n v segs) := by
  intro segs
  induction segs with
  | nil => intro _ _; rfl
  | cons sg rest ih =>
    intro hok hp
    match sg with
    | .lit l =>
      simp only [segsSubOK, Bool.and_eq_true] at hok
      have hstep : substAll ('$' :: n) v (renderSegs (Seg.lit l :: rest))
          = l ++ substAll ('$' :: n) v (renderSegs rest) := by
        rw [renderSegs_lit]
        exact substSkip_append_free n v l _ hok.1
      rw [hstep, ih hok.2 (fun m hm hmn => hp m hm hmn)]
      rfl
    | .tok m =>
      simp only [segsSubOK, Bool.and_eq_true] at hok
      have hwm : wordOnly m = true := hok.1.2
      by_cases hmn : m = n
      · subst hmn
        have hpf : ('$' :: m).isPrefixOf
            ('$' :: (m ++ renderSegs rest)) = true := by
          unfold List.isPrefixOf
          rw [isPrefixOf_append_self]
          simp
        rw [renderSegs_tok]
        unfold substAll
        rw [substSkip_zero, if_pos hpf]
        have hlen : ('$' :: m).length - 1 = m.length := by
          simp
        rw [hlen, substSkip_run ('$' :: m) v m (renderSegs rest)]
        have ih2 := ih hok.2 (fun m2 hm2 hm2n => hp m2
          (List.mem_cons_of_mem m hm2) hm2n)
        unfold substAll at ih2
        rw [ih2]
        have : substSeg m v (Seg.tok m :: rest)
            = Seg.lit v :: substSeg m v rest := by
          simp [substSeg]
        rw [this, renderSegs_lit]
      · have hpm := hp m (List.mem_cons_self m (segNames rest)) hmn
        have hpf : ('$' :: n).isPrefixOf
            ('$' :: (m ++ renderSegs rest)) = false := by
          unfold List.isPrefixOf
          rw [isPrefixOf_append_false n m _ hpm.1 hpm.2]
          simp
        rw [renderSegs_tok]
        unfold substAll
        rw [substSkip_zero, hpf]
        simp only [Bool.false_eq_true, if_false]
        rw [substSkip_append_free n v m _ (wordOnly_dollarFree m hwm)]
        have ih2 := ih hok.2 (fun m2 hm2 hm2n => hp m2
          (List.mem_cons_of_mem m hm2) hm2n)
        unfold substAll at ih2
        rw [ih2]
        have hsub : substSeg n v (Seg.tok m :: rest)
            = Seg.tok m :: substSeg n v rest := by
          simp [substSeg, hmn]
        rw [hsub, renderSegs_tok]



theorem segNames_substSeg (n v : List Char) :
    ∀ segs m, m ∈ segNames (substSeg n v segs) →
      m ∈ segNames segs ∧ m ≠ n := by
  intro segs
  induction segs with
  | nil => intro m hm; cases hm
  | cons sg rest ih =>
    intro m hm
    match sg with
    | .lit l =>
      have hm2 : m ∈ segNames (substSeg n v rest) := hm
      exact ih m hm2
    | .tok m2 =>
      by_cases hm2 : m2 = n
      · have hs : substSeg n v (Seg.tok m2 :: rest)
            = Seg.lit v :: substSeg n v rest := by
          simp [substSeg, hm2]
        rw [hs] at hm
        have hm3 : m ∈ segNames (substSeg n v rest) := hm
        obtain ⟨h1, h2⟩ := ih m hm3
        exact ⟨List.mem_cons_of_mem m2 h1, h2⟩
      · have hs : substSeg n v (Seg.tok m2 :: rest)
            = Seg.tok m2 :: substSeg n v rest := by
          simp [substSeg, hm2]
        rw [hs] at hm
        have hm3 : m ∈ m2 :: segNames (substSeg n v rest) := hm
        rcases List.mem_cons.mp hm3 with rfl | hm4
        · exact ⟨List.mem_cons_self m (segNames rest), hm2⟩
        · obtain ⟨h1, h2⟩ := ih m hm4
          exact ⟨List.mem_cons_of_mem m2 h1, h2⟩

theorem segsSubOK_substSeg (n v : List Char) (hv : dollarFree v = true) :
    ∀ segs, segsSubOK segs = true →
      segsSubOK (substSeg n v segs) = true := by
  intro segs
  induction segs with
  | nil => intro _; rfl
  | cons sg rest ih =>
    intro h
    match sg with
    | .lit l =>
      simp only [segsSubOK, Bool.and_eq_true] at h
      have hs : substSeg n v (Seg.lit l :: rest)
          = Seg.lit l :: substSeg n v rest := rfl
      rw [hs]
      simp only [segsSubOK, Bool.and_eq_true]
      exact ⟨h.1, ih h.2⟩
    | .tok m =>
      simp only [segsSubOK, Bool.and_eq_true] at h
      by_cases hm : m = n
      · have hs : substSeg n v (Seg.tok m :: rest)
            = Seg.lit v :: substSeg n v rest := by
          simp [substSeg, hm]
        rw [hs]
        simp only [segsSubOK, Bool.and_eq_true]
        exact ⟨hv, ih h.2⟩
      · have hs : substSeg n v (Seg.tok m :: rest)
            = Seg.tok m :: substSeg n v rest := by
          simp [substSeg, hm]
        rw [hs]
        simp only [segsSubOK, Bool.and_eq_true]
        exact ⟨h.1, ih h.2⟩

theorem renderSegs_dollarFree :
    ∀ segs, segsSubOK segs = true → segNames segs = [] →
      dollarFree (renderSegs segs) = true := by
  intro segs
  induction segs with
  | nil => intro _ _; rfl
  | cons sg rest ih =>
    intro h hn
    match sg with
    | .lit l =>
      simp only [segsSubOK, Bool.and_eq_true] at h
      rw [renderSegs_lit, dollarFree_append, h.1, ih h.2 hn]
      rfl
    | .tok m => cases hn

theorem segsWF_subOK :
    ∀ segs, segsWF segs = true → segsSubOK segs = true := by
  intro segs
  induction segs with
  | nil => intro _; rfl
  | cons sg rest ih =>
    intro h
    match sg with
    | .lit l =>
      simp only [segsWF, Bool.and_eq_true] at h
      simp only [segsSubOK, Bool.and_eq_true]
      exact ⟨h.1, ih h.2⟩
    | .tok n =>
      simp only [segsWF, Bool.and_eq_true] at h
      simp only [segsSubOK, Bool.and_eq_true]
      exact ⟨⟨h.1.1.1, h.1.1.2⟩, ih h.2⟩

theorem segsWF_names :
    ∀ segs, segsWF segs = true →
      ∀ n1, n1 ∈ segNames segs → ¬ n1 = [] := by
  intro segs
  induction segs with
  | nil => intro _ n1 h1; cases h1
  | cons sg rest ih =>
    intro h n1 h1
    match sg with
    | .lit l =>
      simp only [segsWF, Bool.and_eq_true] at h
      exact ih h.2 n1 h1
    | .tok n =>
      simp only [segsWF, Bool.and_eq_true] at h
      have h2 : n1 ∈ n :: segNames rest := h1
      rcases List.mem_cons.mp h2 with rfl | h3
      · have ha := h.1.1.1
        intro hn
        subst hn
        cases ha
      · exact ih h.2 n1 h3

theorem resolveLoop_render (ctx : ResolveCtx) (orig : String) :
    ∀ ns segs, segsSubOK segs = true →
      (∀ m, m ∈ segNames segs → m ∈ ns) →
      (∀ n1, n1 ∈ ns → ¬ n1 = []) →
      (∀ n1, n1 ∈ ns → ∀ m, m ∈ ns → n1 ≠ m →
        n1.isPrefixOf m = false) →
      (∀ n1, n1 ∈ ns → ∃ v, resolveVar ctx n1 = some v ∧
        dollarFree v.data = true) →
      ∃ segs2, resolveLoop ctx orig ns (renderSegs segs)
          = .ok (renderSegs segs2) ∧
        segsSubOK segs2 = true ∧
        ∀ m, m ∈ segNames segs2 → m ∈ segNames segs ∧ ¬ m ∈ ns := by
  intro ns
  induction ns with
  | nil =>
    intro segs hok hsub _ _ _
    exact ⟨segs, rfl, hok,
      fun m hm => ⟨hm, List.not_mem_nil m⟩⟩
  | cons n rest ih =>
    intro segs hok hsub hne hpw hres
    obtain ⟨v, hv, hvd⟩ := hres n (List.mem_cons_self n rest)
    have hloop : resolveLoop ctx orig (n :: rest) (renderSegs segs)
        = resolveLoop ctx orig rest
          (substAll ('$' :: n) v.data (renderSegs segs)) := by
      conv_lhs => rw [resolveLoop]
      rw [hv]
    have hstep := substAll_render n v.data
      (hne n (List.mem_cons_self n rest)) segs hok
      (fun m hm hmn =>
        ⟨hpw n (List.mem_cons_self n rest) m (hsub m hm) (Ne.symm hmn),
         hpw m (hsub m hm) n (List.mem_cons_self n rest) hmn⟩)
    have hok2 : segsSubOK (substSeg n v.data segs) = true :=
      segsSubOK_substSeg n v.data hvd segs hok
    have hsub2 : ∀ m, m ∈ segNames (substSeg n v.data segs) →
        m ∈ rest := by
      intro m hm
      obtain ⟨h1, h2⟩ := segNames_substSeg n v.data segs m hm
      rcases List.mem_cons.mp (hsub m h1) with rfl | h3
      · exact absurd rfl h2
      · exact h3
    obtain ⟨segs3, hrun, hok3, hnames3⟩ := ih (substSeg n v.data segs)
      hok2 hsub2
      (fun n1 h1 => hne n1 (List.mem_cons_of_mem n h1))
      (fun n1 h1 m hm hnm => hpw n1 (List.mem_cons_of_mem n h1) m
        (List.mem_cons_of_mem n hm) hnm)
      (fun n1 h1 => hres n1 (List.mem_cons_of_mem n h1))
    refine ⟨segs3, ?_, hok3, ?_⟩
    · rw [hloop, hstep, hrun]
    · intro m hm
      obtain ⟨h1, h2⟩ := hnames3 m hm
      obtain ⟨h3, h4⟩ := segNames_substSeg n v.data segs m h1
      refine ⟨h3, ?_⟩
      intro hc
      rcases List.mem_cons.mp hc with rfl | hc
      · exact h4 rfl
      · exact h2 hc

/-- C9 (amended): `resolved_command` replaces every occurrence of each
`$NAME` token found once, up front, in the ORIGINAL template, processing
them left to right; substituted values are never re-scanned on their own
— a `$NAME` occurring inside a substituted value is expanded exactly when
`NAME` also occurs as a token of the original template processed
afterwards (the counterexample exhibits this); in particular, whenever
every resolved value is `$`-free (and token names are pairwise
non-prefix), the resolved command contains no `$` at all: every
occurrence of every token has been replaced and no token introduced by a
substitution survives or is expanded. -/
theorem resolved_command_no_reexpansion (ctx : ResolveCtx)
    (segs : List Seg)
    (hwf : segsWF segs = true)
    (hpw : ∀ n1, n1 ∈ segNames segs → ∀ m, m ∈ segNames segs →
      n1 ≠ m → n1.isPrefixOf m = false)
    (hres : ∀ n1, n1 ∈ segNames segs → ∃ v, resolveVar ctx n1 = some v ∧
      dollarFree v.data = true) :
    ∃ r, resolved_command ctx (String.mk (renderSegs segs)) = .ok r ∧
      dollarFree r.data = true ∧
      ∀ n1, n1 ∈ segNames segs → occursIn ('$' :: n1) r.data = false := by
  have htoks : findTokens (String.mk (renderSegs segs))
      = segNames segs := tokensAux_render segs hwf
  obtain ⟨segs2, hrun, hok2, hnm⟩ := resolveLoop_render ctx
    (String.mk (renderSegs segs)) (segNames segs) segs
    (segsWF_subOK segs hwf) (fun m hm => hm) (segsWF_names segs hwf)
    hpw hres
  have hempty : segNames segs2 = [] := by
    cases hsn : segNames segs2 with
    | nil => rfl
    | cons m ms =>
      have hmem : m ∈ segNames segs2 := by
        rw [hsn]
        exact List.mem_cons_self m ms
      obtain ⟨h1, h2⟩ := hnm m hmem
      exact absurd h1 h2
  have hfree := renderSegs_dollarFree segs2 hok2 hempty
  refine ⟨String.mk (renderSegs segs2), ?_, hfree, ?_⟩
  · unfold resolved_command
    rw [htoks]
    have hdata : (String.mk (renderSegs segs)).data = renderSegs segs :=
      rfl
    rw [hdata, hrun]
  · intro n1 h1
    exact occursIn_dollar_of_free n1 _ hfree

/-- Witness for C9 (amended): with the `$`-free values `A ↦ "x"`,
`B ↦ "y"`, the template `"$A $B"` resolves with no `$` left and no
`$B` in the result. -/
theorem resolved_command_no_reexpansion_witness :
    ∃ r, resolved_command ctx9v (String.mk (renderSegs segs9)) = .ok r ∧
      dollarFree r.data = true ∧
      occursIn ('$' :: ['B']) r.data = false := by
  obtain ⟨r, h1, h2, h3⟩ := resolved_command_no_reexpansion ctx9v segs9
    (by decide)
    (by decide)
    (by intro n1 hn1
        have hn2 : n1 ∈ [['A'], ['B']] := hn1
        rcases List.mem_cons.mp hn2 with rfl | hn3
        · exact ⟨"x", rfl, rfl⟩
        · rcases List.mem_cons.mp hn3 with rfl | hn4
          · exact ⟨"y", rfl, rfl⟩
          · cases hn4)
  exact ⟨r, h1, h2, h3 ['B'] (by decide)⟩


theorem effective_fanout_lb :
    ∀ (ts : List MTask) (acc : Option Nat) (k : Nat),
      ts.foldl
        (fun acc t =>
          match t.fanout with
          | none => acc
          | some f =>
            match acc with
            | none => some f
            | some a => some (min a f))
        acc = some k →
      (∀ a, acc = some a → k ≤ a) ∧
      (∀ t ∈ ts, ∀ v, t.fanout = some v → k ≤ v) := by
  intro ts
  induction ts with
  | nil =>
    intro acc k h
    refine ⟨?_, by simp⟩
    intro a ha
    simp [List.foldl_nil, ha] at h
    omega
  | cons t ts ih =>
    intro acc k h
    rw [List.foldl_cons] at h
    match hf : t.fanout with
    | none =>
      rw [hf] at h
      obtain ⟨h1, h2⟩ := ih acc k h
      refine ⟨h1, ?_⟩
      intro u hu v hv
      rcases List.mem_cons.mp hu with rfl | hu
      · rw [hf] at hv; exact absurd hv (by simp)
      · exact h2 u hu v hv
    | some f =>
      rw [hf] at h
      match hacc : acc with
      | none =>
        obtain ⟨h1, h2⟩ := ih (some f) k h
        have hkf : k ≤ f := h1 f rfl
        refine ⟨by simp, ?_⟩
        intro u hu v hv
        rcases List.mem_cons.mp hu with rfl | hu
        · rw [hf] at hv
          injection hv with hv
          omega
        · exact h2 u hu v hv
      | some a =>
        obtain ⟨h1, h2⟩ := ih (some (min a f)) k h
        have hkm : k ≤ min a f := h1 _ rfl
        refine ⟨?_, ?_⟩
        · intro a2 ha2
          injection ha2 with ha2
          subst ha2
          exact le_trans hkm (Nat.min_le_left _ _)
        · intro u hu v hv
          rcases List.mem_cons.mp hu with rfl | hu
          · rw [hf] at hv
            injection hv with hv
            subst hv
            exact le_trans hkm (Nat.min_le_right _ _)
          · exact h2 u hu v hv

theorem effective_fanout_attained :
    ∀ (ts : List MTask) (acc : Option Nat) (k : Nat),
      ts.foldl
        (fun acc t =>
          match t.fanout with
          | none => acc
          | some f =>
            match acc with
            | none => some f
            | some a => some (min a f))
        acc = some k →
      acc = some k ∨ ∃ t ∈ ts, t.fanout = some k := by
  intro ts
  induction ts with
  | nil => intro acc k h; simp [List.foldl_nil] at h; exact Or.inl h
  | cons t ts ih =>
    intro acc k h
    rw [List.foldl_cons] at h
    match hf : t.fanout with
    | none =>
      rw [hf] at h
      rcases ih acc k h with h1 | ⟨u, hu, h2⟩
      · exact Or.inl h1
      · exact Or.inr ⟨u, List.mem_cons_of_mem t hu, h2⟩
    | some f =>
      rw [hf] at h
      match hacc : acc with
      | none =>
        rcases ih (some f) k h with h1 | ⟨u, hu, h2⟩
        · injection h1 with h1
          exact Or.inr ⟨t, List.mem_cons_self t ts, by rw [hf, h1]⟩
        · exact Or.inr ⟨u, List.mem_cons_of_mem t hu, h2⟩
      | some a =>
        rcases ih (some (min a f)) k h with h1 | ⟨u, hu, h2⟩
        · injection h1 with h1
          rcases Nat.le_total a f with hle | hle
          · rw [Nat.min_eq_left hle] at h1
            exact Or.inl (by rw [h1])
          · rw [Nat.min_eq_right hle] at h1
            exact Or.inr ⟨t, List.mem_cons_self t ts, by rw [hf, h1]⟩
        · exact Or.inr ⟨u, List.mem_cons_of_mem t hu, h2⟩

theorem effective_fanout_all_none :
    ∀ (ts : List MTask), (∀ t ∈ ts, t.fanout = none) →
      effective_fanout ts = none := by
  have key : ∀ (ts : List MTask) (acc : Option Nat),
      (∀ t ∈ ts, t.fanout = none) →
      ts.foldl
        (fun acc t =>
          match t.fanout with
          | none => acc
          | some f =>
            match acc with
            | none => some f
            | some a => some (min a f))
        acc = acc := by
    intro ts
    induction ts with
    | nil => intro acc _; rfl
    | cons t ts ih =>
      intro acc hz
      rw [List.foldl_cons, hz t (List.mem_cons_self t ts)]
      exact ih acc fun u hu => hz u (List.mem_cons_of_mem t hu)
  intro ts h
  exact key ts none h

theorem effective_fanout_isSome :
    ∀ (ts : List MTask) (t : MTask) (f : Nat),
      t ∈ ts → t.fanout = some f → effective_fanout ts ≠ none := by
  have key : ∀ (ts : List MTask) (a : Nat),
      ts.foldl
        (fun acc t =>
          match t.fanout with
          | none => acc
          | some f =>
            match acc with
            | none => some f
            | some a => some (min a f))
        (some a) ≠ none := by
    intro ts
    induction ts with
    | nil => intro a h; simp at h
    | cons t ts ih =>
      intro a
      rw [List.foldl_cons]
      match hf : t.fanout with
      | none => exact ih a
      | some f => exact ih (min a f)
  intro ts t f ht hf
  unfold effective_fanout
  induction ts with
  | nil => cases ht
  | cons u ts ih =>
    rw [List.foldl_cons]
    rcases List.mem_cons.mp ht with rfl | ht
    · rw [hf]
      exact key ts f
    · match hu : u.fanout with
      | none => exact ih ht
      | some g => exact key ts g

/-- C3: the Action Manager keeps `fanout` equal to the minimum of the
fan-out values of the running actions that have one set (unset members are
ignored): the value is recomputed by every `add_task` and `remove_task`, a
computed `some k` is both attained by some running action and a lower bound
for every set fan-out, a running set where no member has a fan-out yields
the unset default, and removing the last running action reverts the
fan-out to unset. -/
theorem manager_fanout_min (t : MTask) (m : ActionManager)
    (ts : List MTask) (k : Nat) :
    ((add_task t m).fanout = effective_fanout (add_task t m).running_tasks) ∧
    ((remove_task t m).fanout
      = effective_fanout (remove_task t m).running_tasks) ∧
    (effective_fanout ts = some k →
      (∃ u ∈ ts, u.fanout = some k) ∧
      (∀ u ∈ ts, ∀ v, u.fanout = some v → k ≤ v)) ∧
    ((∀ u ∈ ts, u.fanout = none) → effective_fanout ts = none) ∧
    ((∃ u ∈ ts, ∃ f, u.fanout = some f) → effective_fanout ts ≠ none) ∧
    ((remove_task t m).running_tasks = [] →
      (remove_task t m).fanout = none) := by
  refine ⟨rfl, rfl, ?_, effective_fanout_all_none ts, ?_, ?_⟩
  · intro h
    refine ⟨?_, (effective_fanout_lb ts none k h).2⟩
    rcases effective_fanout_attained ts none k h with h1 | h1
    · exact absurd h1 (by simp)
    · exact h1
  · rintro ⟨u, hu, f, hf⟩
    exact effective_fanout_isSome ts u f hu hf
  · intro h
    show effective_fanout (m.running_tasks.filter (fun u => u.id ≠ t.id))
        = none
    have : (m.running_tasks.filter (fun u => u.id ≠ t.id)) = [] := h
    rw [this]
    rfl

/-- Witness for C3: fan-outs `{60, unset, 50}` give effective fan-out `50`
(the unset member is ignored), and removing the last running action reverts
the effective fan-out to unset. -/
theorem manager_fanout_min_witness :
    (add_task ⟨2, some 50⟩ (add_task ⟨1, none⟩
      (add_task ⟨0, some 60⟩ ActionManager.init))).fanout = some 50 ∧
    (remove_task ⟨0, some 60⟩ (add_task ⟨0, some 60⟩
      ActionManager.init)).fanout = none ∧
    ((∃ u ∈ [(⟨0, some 60⟩ : MTask), ⟨1, none⟩, ⟨2, some 50⟩],
        u.fanout = some 50) ∧
      (∀ u ∈ [(⟨0, some 60⟩ : MTask), ⟨1, none⟩, ⟨2, some 50⟩],
        ∀ v, u.fanout = some v → 50 ≤ v)) := by
  refine ⟨by decide, ?_, ?_⟩
  · exact (manager_fanout_min ⟨0, some 60⟩
      (add_task ⟨0, some 60⟩ ActionManager.init) [] 0).2.2.2.2.2 (by decide)
  · exact (manager_fanout_min ⟨0, some 60⟩ ActionManager.init
      [⟨0, some 60⟩, ⟨1, none⟩, ⟨2, some 50⟩] 50).2.2.1 (by decide)


end MilkCheck
